import Mathlib

/-!
Verification development for the `linkoverlay` Ansible collection
(`plugins/module_utils/linkoverlay.py` and `plugins/modules/linkoverlay.py`).

Modelling conventions:
* A filesystem path is `Pth`: an absoluteness flag plus a list of normalized
  components (no empty, "." or trailing-slash components).  This matches the
  normalized paths the module works with (Ansible `path` arguments and
  `os.path.join` of `listdir` entries).
* Live filesystem state is an oracle `FSOracle` of pure functions standing for
  the `os`/`os.path` primitives the module calls (`islink`, `exists`, `isdir`,
  resolved symlink targets, `listdir`, `os.walk`, `samefile`, stat equality,
  `os.supports_follow_symlinks` membership).  The module only ever consumes
  these primitives as black boxes, so they are uninterpreted here.
* `Tree` mirrors the Python `Tree` dataclass; the `props` dict is an
  association list where `set_prop` conses a binding (first binding wins on
  lookup, which is exactly `dict` assignment as observed through lookups).
* Python functions that raise are `Except`-valued; `AssertionError` is the
  spec's `PathError` for the translator.
* `Tree.from_path` recurses along the live directory listing, which is not
  structurally bounded, so it takes fuel; fuel is consumed only when actually
  recursing into a directory's entries, and running out is a distinct error
  (`BuildErr.noFuel`) that never occurs on filesystems of bounded depth.
* The executor (`remove_trees` / `create_links` / `change_stats`) is modelled
  by the trace of mutating filesystem actions it performs, in order; a run
  that fails beforehand has the empty trace, i.e. leaves the disk unchanged.
-/

namespace LinkOverlay

/-- A normalized filesystem path: absoluteness flag plus components. -/
structure Pth where
  abs : Bool
  parts : List String
deriving DecidableEq, Repr

/-- `os.path.join(p, name)` for a single listdir entry. -/
def Pth.child (p : Pth) (nm : String) : Pth :=
  ⟨p.abs, p.parts ++ [nm]⟩

/-- `os.path.dirname`. -/
def Pth.dirname (p : Pth) : Pth :=
  ⟨p.abs, p.parts.dropLast⟩

/-- Rendering of a path as the string the module reports. -/
def Pth.render (p : Pth) : String :=
  (if p.abs then "/" else "") ++ String.intercalate "/" p.parts

/-- Whether `a` is a component-wise leading part of `b`. -/
def partsLe : List String → List String → Bool
  | [], _ => true
  | _ :: _, [] => false
  | a :: as, b :: bs => a == b && partsLe as bs

/-- Longest common leading run of components (`os.path.commonpath` on the
component level, for two paths of equal absoluteness). -/
def commonParts : List String → List String → List String
  | a :: as, b :: bs => if a == b then a :: commonParts as bs else []
  | _, _ => []

/-- Truthiness of the string `os.path.commonpath([a, b])` for `a`, `b` of equal
absoluteness: an absolute common path is at least "/" and hence truthy; a
relative one is truthy iff some component is shared. -/
def commonTruthy (a b : Pth) : Bool :=
  a.abs || !(commonParts a.parts b.parts).isEmpty

/-- `os.path.relpath(p, start)` on the component level: ".." for every
component of `start` past the common part, then the remainder of `p`.
(The empty result stands for Python's "."; joining it is a no-op.) -/
def relParts (p start : Pth) : List String :=
  List.replicate (start.parts.length - (commonParts start.parts p.parts).length) ".."
    ++ p.parts.drop (commonParts start.parts p.parts).length

/-- `os.path.join(base, r)` for a relative component list `r`. -/
def joinParts (base : Pth) (r : List String) : Pth :=
  ⟨base.abs, base.parts ++ r⟩

/-- A value stored in a tree node's `props` dict. -/
inductive PropVal where
  | b (x : Bool)
  | p (x : Pth)
deriving DecidableEq, Repr

/-- The `Tree` dataclass of `module_utils/linkoverlay.py`. -/
inductive Tree where
  | node (path : Pth) (depth : Option Int) (props : List (String × PropVal)) (children : List Tree)
deriving Repr

def Tree.path : Tree → Pth
  | .node p _ _ _ => p

def Tree.depth : Tree → Option Int
  | .node _ d _ _ => d

def Tree.props : Tree → List (String × PropVal)
  | .node _ _ pr _ => pr

def Tree.children : Tree → List Tree
  | .node _ _ _ cs => cs

/-- Dict lookup: first binding wins (bindings are consed by `set_prop`). -/
def plookup : List (String × PropVal) → String → Option PropVal
  | [], _ => none
  | (k, v) :: rest, key => if k == key then some v else plookup rest key

/-- `tree.props[key]` read as a boolean fact (the pipeline only reads keys it
has already written; a missing key defaults to `false` and is never hit). -/
def Tree.getB (t : Tree) (key : String) : Bool :=
  match plookup t.props key with
  | some (.b x) => x
  | _ => false

/-- `tree.props[key]` read as a path (used for `original_path`). -/
def Tree.getPath (t : Tree) (key : String) : Pth :=
  match plookup t.props key with
  | some (.p x) => x
  | _ => ⟨true, []⟩

/-- `Tree.set_prop`: dict assignment, modelled by consing the binding. -/
def Tree.set_prop (t : Tree) (key : String) (v : PropVal) : Tree :=
  .node t.path t.depth ((key, v) :: t.props) t.children

mutual
/-- `tree.apply(lambda t: t.set_prop(key, f t))` (non-stopping, whole subtree
including the node itself). -/
def Tree.setAllBy (key : String) (f : Tree → Bool) : Tree → Tree
  | .node p d pr cs =>
    .node p d ((key, .b (f (.node p d pr cs))) :: pr) (Tree.setAllByList key f cs)

def Tree.setAllByList (key : String) (f : Tree → Bool) : List Tree → List Tree
  | [] => []
  | t :: ts => Tree.setAllBy key f t :: Tree.setAllByList key f ts
end

mutual
/-- All nodes of a tree, the node itself first, children in order. -/
def Tree.nodes : Tree → List Tree
  | .node p d pr cs => .node p d pr cs :: Tree.nodesList cs

def Tree.nodesList : List Tree → List Tree
  | [] => []
  | t :: ts => Tree.nodes t ++ Tree.nodesList ts
end

/-- All nodes strictly below a (synthetic) root. -/
def Tree.nodes_below (t : Tree) : List Tree :=
  Tree.nodesList t.children

mutual
/-- All nodes paired with their strict-ancestor list (nearest first), the
accumulator `anc` being the ancestors above the current subtree. -/
def Tree.nodesWA (anc : List Tree) : Tree → List (Tree × List Tree)
  | .node p d pr cs =>
    (Tree.node p d pr cs, anc) :: Tree.nodesWAList (Tree.node p d pr cs :: anc) cs

def Tree.nodesWAList (anc : List Tree) : List Tree → List (Tree × List Tree)
  | [] => []
  | t :: ts => Tree.nodesWA anc t ++ Tree.nodesWAList anc ts
end

/-- Nodes below the synthetic root, each with its strict ancestors below the
root (nearest first). -/
def Tree.childrenWA (t : Tree) : List (Tree × List Tree) :=
  Tree.nodesWAList [] t.children

mutual
/-- `Tree.filter`: all subtrees (pre-order) satisfying the predicate. -/
def Tree.filterT (f : Tree → Bool) : Tree → List Tree
  | .node p d pr cs =>
    (if f (.node p d pr cs) then [Tree.node p d pr cs] else []) ++ Tree.filterTList f cs

def Tree.filterTList (f : Tree → Bool) : List Tree → List Tree
  | [] => []
  | t :: ts => Tree.filterT f t ++ Tree.filterTList f ts
end

/-- `Tree.filter_children`. -/
def Tree.filter_children (t : Tree) (f : Tree → Bool) : List Tree :=
  Tree.filterTList f t.children

mutual
/-- `Tree.any`: the predicate holds for the tree or any descendant. -/
def Tree.anyT (f : Tree → Bool) : Tree → Bool
  | .node p d pr cs => f (.node p d pr cs) || Tree.anyTList f cs

def Tree.anyTList (f : Tree → Bool) : List Tree → Bool
  | [] => false
  | t :: ts => Tree.anyT f t || Tree.anyTList f ts
end

/-- `Tree.any_children`. -/
def Tree.any_children (t : Tree) (f : Tree → Bool) : Bool :=
  Tree.anyTList f t.children

/-- The filesystem oracle: the `os` / `os.path` primitives the module calls,
taken as pure black boxes (the module never observes anything else). -/
structure FSOracle where
  /-- `os.path.islink` -/
  islink : Pth → Bool
  /-- `os.path.exists` (follows symlinks; false on broken links) -/
  fsexists : Pth → Bool
  /-- `os.path.isdir` (follows symlinks) -/
  isdir : Pth → Bool
  /-- `abspath(join(dirname(link), readlink(link)))`: the resolved absolute
  target of the symlink at the given path (meaningful only when `islink`) -/
  linkTarget : Pth → Pth
  /-- whether `readlink` yields a relative target (meaningful when `islink`) -/
  linkRel : Pth → Bool
  /-- `os.listdir` -/
  listdir : Pth → List String
  /-- `os.walk`: (dirpath, dirnames, filenames) triples -/
  walk : Pth → List (Pth × List String × List String)
  /-- `os.path.samefile` (both arguments exist when the module calls it) -/
  samefile : Pth → Pth → Bool
  /-- `util.equal_mode`: equal `st_mode` of the two lstat results -/
  equal_mode : Pth → Pth → Bool
  /-- `util.equal_owner`: equal `st_uid`/`st_gid` of the two lstat results -/
  equal_owner : Pth → Pth → Bool
  /-- `os.chmod in os.supports_follow_symlinks` -/
  chmodFollow : Bool
  /-- `os.chown in os.supports_follow_symlinks` -/
  chownFollow : Bool

/-- `util.exists`: broken symlinks count as existing. -/
def fs_exists (o : FSOracle) (p : Pth) : Bool :=
  o.fsexists p || o.islink p

/-- `util.isdir`: a symlink is never a directory. -/
def isdirReal (o : FSOracle) (p : Pth) : Bool :=
  o.isdir p && !o.islink p

/-- `util.is_inside` (both paths already absolute in every use). -/
def is_inside (inner outer : Pth) : Bool :=
  partsLe outer.parts inner.parts

/-- `util.points_to`: a symlink resolving exactly to `path`. -/
def points_to (o : FSOracle) (link path : Pth) : Bool :=
  o.islink link && (o.linkTarget link == path)

/-- `util.points_into`: a symlink resolving to or into `path`. -/
def points_into (o : FSOracle) (link path : Pth) : Bool :=
  o.islink link && is_inside (o.linkTarget link) path

/-- `util.is_relative_link`. -/
def is_relative_link (o : FSOracle) (link : Pth) : Bool :=
  o.islink link && o.linkRel link

/-- `Tree.translate_path` on the path level.  The guard mirrors the source:
`AssertionError` (the spec's `PathError`) iff the absoluteness of the two
paths differs, or `old_base` differs from the path while
`commonpath([old_base, path])` is falsy. -/
def translate_pathP (p old_base new_base : Pth) : Except Unit Pth :=
  if p.abs != old_base.abs || !(old_base == p || commonTruthy old_base p) then
    .error ()
  else
    .ok (joinParts new_base (relParts p old_base))

/-- `Tree.translate_path` (method form). -/
def Tree.translate_path (t : Tree) (old_base new_base : Pth) : Except Unit Pth :=
  translate_pathP t.path old_base new_base

/-- Total wrapper used where the source calls `translate_path` on engine paths
that are all absolute, so the `AssertionError` branch is unreachable. -/
def translate_path_total (p old_base new_base : Pth) : Pth :=
  match translate_pathP p old_base new_base with
  | .ok q => q
  | .error _ => ⟨true, []⟩

mutual
/-- `Tree.translate`: rewrite every path from `old_base` to `new_base`,
keeping the original in `props["original_path"]`. -/
def Tree.translate_aux (old_base new_base : Pth) : Tree → Except Unit Tree
  | .node p d pr cs =>
    match translate_pathP p old_base new_base with
    | .error e => .error e
    | .ok q =>
      match Tree.translate_auxList old_base new_base cs with
      | .error e => .error e
      | .ok cs' => .ok (.node q d (("original_path", PropVal.p p) :: pr) cs')

def Tree.translate_auxList (old_base new_base : Pth) : List Tree → Except Unit (List Tree)
  | [] => .ok []
  | t :: ts =>
    match Tree.translate_aux old_base new_base t with
    | .error e => .error e
    | .ok t' =>
      match Tree.translate_auxList old_base new_base ts with
      | .error e => .error e
      | .ok ts' => .ok (t' :: ts')
end

def Tree.translate (t : Tree) (old_base new_base : Pth) : Except Unit Tree :=
  Tree.translate_aux old_base new_base t

/-- Failure modes of `Tree.from_path`: the `AssertionError` of the source, and
the fuel artifact of the embedding. -/
inductive BuildErr where
  | assertFail
  | noFuel
deriving DecidableEq, Repr

/-- `Tree.from_path`: builds a tree from an existing path; symlinks are
treated like files and not recursed into.  Fuel bounds the recursion depth
and is consumed only when recursing into a directory's entries. -/
def Tree.from_path (o : FSOracle) (fuel : Nat) (path : Pth) (depth : Option Int) :
    Except BuildErr Tree :=
  if (match depth with | some d => d < 0 | none => false)
      || !fs_exists o path || !path.abs then
    .error .assertFail
  else
    let is_dir := isdirReal o path
    let childrenE : Except BuildErr (List Tree) :=
      if is_dir && depth != some 0 then
        match fuel with
        | 0 => if (o.listdir path).isEmpty then .ok [] else .error .noFuel
        | fuel' + 1 =>
          (o.listdir path).mapM
            (fun nm => Tree.from_path o fuel' (path.child nm) (depth.map (· - 1)))
      else
        .ok []
    childrenE.map (fun cs => Tree.node path depth [("is_dir", PropVal.b is_dir)] cs)

/-! ## The classifier pipeline (`plugins/modules/linkoverlay.py`)

Each `mark_*` below is the stopping/non-stopping `apply_children` traversal of
the source, with the visitor body inlined into the recursion: a visitor that
returns `False` has its cascade applied to the subtree and recursion stops. -/

mutual
/-- Visitor of `mark_symlinked`: the node gets `symlinked = False`; if the
node is currently a symlink, every descendant gets `symlinked = True` and
recursion stops. -/
def mark_symlinked_aux (o : FSOracle) : Tree → Tree
  | .node p d pr cs =>
    if o.islink p then
      .node p d (("symlinked", PropVal.b false) :: pr)
        (Tree.setAllByList "symlinked" (fun _ => true) cs)
    else
      .node p d (("symlinked", PropVal.b false) :: pr) (mark_symlinked_auxList o cs)

def mark_symlinked_auxList (o : FSOracle) : List Tree → List Tree
  | [] => []
  | t :: ts => mark_symlinked_aux o t :: mark_symlinked_auxList o ts
end

/-- `mark_symlinked` (children-only). -/
def mark_symlinked (o : FSOracle) (translation : Tree) : Tree :=
  .node translation.path translation.depth translation.props
    (mark_symlinked_auxList o translation.children)

mutual
/-- Visitor of `mark_overlaid`. -/
def mark_overlaid_aux (o : FSOracle) (relative_links : Bool) : Tree → Tree
  | .node p d pr cs =>
    let t := Tree.node p d pr cs
    if t.getB "symlinked" then
      Tree.setAllBy "overlaid" (fun _ => false) t
    else if points_to o p (t.getPath "original_path") then
      .node p d (("overlaid", PropVal.b (is_relative_link o p == relative_links)) :: pr)
        (Tree.setAllByList "overlaid" (fun _ => false) cs)
    else
      .node p d (("overlaid", PropVal.b false) :: pr) (mark_overlaid_auxList o relative_links cs)

def mark_overlaid_auxList (o : FSOracle) (relative_links : Bool) : List Tree → List Tree
  | [] => []
  | t :: ts => mark_overlaid_aux o relative_links t :: mark_overlaid_auxList o relative_links ts
end

/-- `mark_overlaid` (children-only). -/
def mark_overlaid (o : FSOracle) (relative_links : Bool) (translation : Tree) : Tree :=
  .node translation.path translation.depth translation.props
    (mark_overlaid_auxList o relative_links translation.children)

mutual
/-- Visitor of `mark_broken` (non-stopping). -/
def mark_broken_aux (o : FSOracle) (overlay : Tree) : Tree → Tree
  | .node p d pr cs =>
    let t := Tree.node p d pr cs
    .node p d
      (("broken", PropVal.b
        (!t.getB "symlinked" && points_into o p overlay.path && !t.getB "overlaid")) :: pr)
      (mark_broken_auxList o overlay cs)

def mark_broken_auxList (o : FSOracle) (overlay : Tree) : List Tree → List Tree
  | [] => []
  | t :: ts => mark_broken_aux o overlay t :: mark_broken_auxList o overlay ts
end

/-- `mark_broken` (children-only). -/
def mark_broken (o : FSOracle) (overlay : Tree) (translation : Tree) : Tree :=
  .node translation.path translation.depth translation.props
    (mark_broken_auxList o overlay translation.children)

mutual
/-- Visitor of `mark_conflicting` (non-stopping). -/
def mark_conflicting_aux (o : FSOracle) : Tree → Tree
  | .node p d pr cs =>
    let t := Tree.node p d pr cs
    .node p d
      (("conflicting", PropVal.b
        (!t.getB "symlinked" && fs_exists o p && !t.getB "is_dir"
          && !t.getB "overlaid" && !t.getB "broken")) :: pr)
      (mark_conflicting_auxList o cs)

def mark_conflicting_auxList (o : FSOracle) : List Tree → List Tree
  | [] => []
  | t :: ts => mark_conflicting_aux o t :: mark_conflicting_auxList o ts
end

/-- `mark_conflicting` (children-only). -/
def mark_conflicting (o : FSOracle) (translation : Tree) : Tree :=
  .node translation.path translation.depth translation.props
    (mark_conflicting_auxList o translation.children)

mutual
/-- Visitor of `mark_collapsed` (non-stopping). -/
def mark_collapsed_aux : Tree → Tree
  | .node p d pr cs =>
    let t := Tree.node p d pr cs
    .node p d (("collapsed", PropVal.b (t.getB "is_dir" && t.getB "overlaid")) :: pr)
      (mark_collapsed_auxList cs)

def mark_collapsed_auxList : List Tree → List Tree
  | [] => []
  | t :: ts => mark_collapsed_aux t :: mark_collapsed_auxList ts
end

/-- `mark_collapsed` (children-only). -/
def mark_collapsed (translation : Tree) : Tree :=
  .node translation.path translation.depth translation.props
    (mark_collapsed_auxList translation.children)

/-- The `replaceable` disk scan of `mark_collapsible`: every actually existing
entry under the tree (via `os.walk`) must be a real directory, or a symlink
into the overlay, or — under the replace policy — a path represented in the
subtree. -/
def collapsibleScan (o : FSOracle) (replace : Bool) (overlay : Tree) (t : Tree) : Bool :=
  (o.walk t.path).all fun entry =>
    entry.2.2.all fun nm =>
      let q := entry.1.child nm
      isdirReal o q || points_into o q overlay.path
        || (replace && Tree.anyT (fun sub => sub.path == q) t)

mutual
/-- Visitor of `mark_collapsible`. -/
def mark_collapsible_aux (o : FSOracle) (replace : Bool) (overlay : Tree) : Tree → Tree
  | .node p d pr cs =>
    let t := Tree.node p d pr cs
    let tentative := !t.getB "symlinked" && t.getB "is_dir" && (!t.getB "conflicting" || replace)
    let collapsible :=
      if tentative && o.fsexists p then collapsibleScan o replace overlay t else tentative
    if collapsible then
      Tree.setAllBy "collapsible" (fun sub => !sub.getB "symlinked") t
    else
      .node p d (("collapsible", PropVal.b false) :: pr)
        (mark_collapsible_auxList o replace overlay cs)

def mark_collapsible_auxList (o : FSOracle) (replace : Bool) (overlay : Tree) :
    List Tree → List Tree
  | [] => []
  | t :: ts =>
    mark_collapsible_aux o replace overlay t :: mark_collapsible_auxList o replace overlay ts
end

/-- `mark_collapsible` (children-only). -/
def mark_collapsible (o : FSOracle) (replace : Bool) (overlay : Tree) (translation : Tree) :
    Tree :=
  .node translation.path translation.depth translation.props
    (mark_collapsible_auxList o replace overlay translation.children)

mutual
/-- Visitor of `mark_removable`. -/
def mark_removable_aux (o : FSOracle) (collapse replace : Bool) : Tree → Tree
  | .node p d pr cs =>
    let t := Tree.node p d pr cs
    let removable :=
      t.getB "broken"
        || (collapse && t.getB "collapsible" && fs_exists o p && !t.getB "collapsed")
        || (!collapse && t.getB "collapsed")
        || (replace && t.getB "conflicting")
    if removable then
      .node p d (("removable", PropVal.b true) :: pr)
        (Tree.setAllByList "removable" (fun _ => true) cs)
    else
      .node p d (("removable", PropVal.b false) :: pr) (mark_removable_auxList o collapse replace cs)

def mark_removable_auxList (o : FSOracle) (collapse replace : Bool) : List Tree → List Tree
  | [] => []
  | t :: ts => mark_removable_aux o collapse replace t :: mark_removable_auxList o collapse replace ts
end

/-- `mark_removable` (children-only). -/
def mark_removable (o : FSOracle) (collapse replace : Bool) (translation : Tree) : Tree :=
  .node translation.path translation.depth translation.props
    (mark_removable_auxList o collapse replace translation.children)

mutual
/-- Visitor of `mark_remove`: mark the topmost `removable` node, cascade
`remove = False` below it. -/
def mark_remove_aux : Tree → Tree
  | .node p d pr cs =>
    let t := Tree.node p d pr cs
    if t.getB "removable" then
      .node p d (("remove", PropVal.b true) :: pr)
        (Tree.setAllByList "remove" (fun _ => false) cs)
    else
      .node p d (("remove", PropVal.b false) :: pr) (mark_remove_auxList cs)

def mark_remove_auxList : List Tree → List Tree
  | [] => []
  | t :: ts => mark_remove_aux t :: mark_remove_auxList ts
end

/-- `mark_remove` (children-only). -/
def mark_remove (translation : Tree) : Tree :=
  .node translation.path translation.depth translation.props
    (mark_remove_auxList translation.children)

mutual
/-- Visitor of `mark_link`. -/
def mark_link_aux (collapse : Bool) : Tree → Tree
  | .node p d pr cs =>
    let t := Tree.node p d pr cs
    let collapsible := t.getB "collapsible"
    let link :=
      (!t.getB "symlinked" && !t.getB "overlaid" && !t.getB "conflicting")
        || t.getB "removable"
    if link && (!t.getB "is_dir" || (collapse && collapsible)) then
      .node p d (("link", PropVal.b true) :: pr)
        (Tree.setAllByList "link" (fun _ => false) cs)
    else
      .node p d (("link", PropVal.b false) :: pr) (mark_link_auxList collapse cs)

def mark_link_auxList (collapse : Bool) : List Tree → List Tree
  | [] => []
  | t :: ts => mark_link_aux collapse t :: mark_link_auxList collapse ts
end

/-- `mark_link` (children-only). -/
def mark_link (collapse : Bool) (translation : Tree) : Tree :=
  .node translation.path translation.depth translation.props
    (mark_link_auxList collapse translation.children)

mutual
/-- Visitor of `mark_stat`. -/
def mark_stat_aux (o : FSOracle) : Tree → Tree
  | .node p d pr cs =>
    let t := Tree.node p d pr cs
    let statsMatch :=
      fs_exists o p
        && (!o.chmodFollow || o.equal_mode p (t.getPath "original_path"))
        && (!o.chownFollow || o.equal_owner p (t.getPath "original_path"))
    if t.getB "link" || t.getB "overlaid" then
      .node p d (("stat", PropVal.b (t.getB "link" || !statsMatch)) :: pr)
        (Tree.setAllByList "stat" (fun _ => false) cs)
    else
      .node p d
        (("stat", PropVal.b
          (!statsMatch && t.any_children (fun c => c.getB "link" || c.getB "overlaid"))) :: pr)
        (mark_stat_auxList o cs)

def mark_stat_auxList (o : FSOracle) : List Tree → List Tree
  | [] => []
  | t :: ts => mark_stat_aux o t :: mark_stat_auxList o ts
end

/-- `mark_stat` (children-only). -/
def mark_stat (o : FSOracle) (translation : Tree) : Tree :=
  .node translation.path translation.depth translation.props
    (mark_stat_auxList o translation.children)

/-! ## Configuration, planner and executor model (`main` of the module) -/

/-- The `conflict` policy. -/
inductive ConflictMode where
  | errorMode
  | keep
  | replace
deriving DecidableEq, Repr

instance : BEq ConflictMode := ⟨fun a b => decide (a = b)⟩

/-- The module parameters plus Ansible check mode.  `backup_dir = none` models
the falsy default `""`. -/
structure Config where
  base_dir : Pth
  overlay_dir : Pth
  relative_links : Bool
  conflict : ConflictMode
  warn_conflict : Bool
  backup_dir : Option Pth
  collapse : Bool
  check_mode : Bool
deriving Repr

/-- The mark sequence of `main`, in source order. -/
def classify (o : FSOracle) (cfg : Config) (overlay translation : Tree) : Tree :=
  let replace := cfg.conflict == ConflictMode.replace
  let t1 := mark_symlinked o translation
  let t2 := mark_overlaid o cfg.relative_links t1
  let t3 := mark_broken o overlay t2
  let t4 := mark_conflicting o t3
  let t5 := mark_collapsed t4
  let t6 := mark_collapsible o replace overlay t5
  let t7 := mark_removable o cfg.collapse replace t6
  let t8 := mark_remove t7
  let t9 := mark_link cfg.collapse t8
  mark_stat o t9

/-- The result dict of the module (`update_result`): `backed_up` is the
optional key added only when a backup dir is configured and the computed
backup list is non-empty (`if backup_list:`). -/
structure MResult where
  changed : Bool
  removed_trees : List Pth
  created_links : List Pth
  changed_stats : List Pth
  backed_up : Option (List Pth)
deriving DecidableEq, Repr

/-- `update_result`. -/
def update_result (base_dir : Pth) (backup_dir : Option Pth)
    (remove linkL statL : List Tree) : MResult :=
  { removed_trees := remove.map Tree.path
    created_links := linkL.map Tree.path
    changed_stats := statL.map Tree.path
    changed := !(remove.isEmpty && linkL.isEmpty && statL.isEmpty)
    backed_up :=
      match backup_dir with
      | none => none
      | some bd =>
        let backup_list :=
          (remove.filter (fun t => t.getB "conflicting")).map
            (fun t => translate_path_total t.path base_dir bd)
        if backup_list.isEmpty then none else some backup_list }

/-- One mutating filesystem action of the executor, in execution order.
`backupA` summarizes the `makedirs` + `cptree` backup copy of one removed
conflicting tree (preserving broken links); `linkA` records the symlink and
the target it is created with. -/
inductive Action where
  | removeA (p : Pth)
  | backupA (src dst : Pth)
  | mkdirA (p : Pth)
  | linkA (lnk : Pth) (target : Pth)
  | statA (p : Pth)
deriving DecidableEq, Repr

/-- Trace of `remove_trees`. -/
def remove_trees_trace (base_dir : Pth) (backup_dir : Option Pth) (remove : List Tree) :
    List Action :=
  remove.flatMap fun t =>
    (match backup_dir with
      | some bd =>
        if t.getB "conflicting" then
          [Action.backupA t.path (translate_path_total t.path base_dir bd)]
        else []
      | none => [])
      ++ [Action.removeA t.path]

/-- Trace of `create_links`: ensure the parent directory, then create the
symlink with a relative or absolute target. -/
def create_links_trace (relative_links : Bool) (linkL : List Tree) : List Action :=
  linkL.flatMap fun t =>
    let orig := t.getPath "original_path"
    let target := if relative_links then ⟨false, relParts orig t.path.dirname⟩ else orig
    [Action.mkdirA t.path.dirname, Action.linkA t.path target]

/-- Trace of `change_stats`. -/
def change_stats_trace (statL : List Tree) : List Action :=
  statL.map fun t => Action.statA t.path

/-- The module `main`, as a pure function of the configuration, the filesystem
oracle, the timestamp `datetime.now()` renders to, and tree-building fuel.
Returns the posted result (`fail_json` message or `exit_json` result) together
with the trace of mutating filesystem actions the run executed.  Warnings
(`warn_conflict`) do not affect the result fields and are not modelled. -/
def main_run (o : FSOracle) (cfg : Config) (timestamp : String) (fuel : Nat) :
    Except String MResult × List Action :=
  let backup_dir := cfg.backup_dir.map (fun b => b.child timestamp)
  if !isdirReal o cfg.base_dir then
    (.error "base_dir has to exist and be a directory", [])
  else if !isdirReal o cfg.overlay_dir then
    (.error "overlay_dir has to exist and be a directory", [])
  else if o.samefile cfg.base_dir cfg.overlay_dir
      || is_inside cfg.base_dir cfg.overlay_dir then
    (.error "base_dir must not be (inside) overlay_dir", [])
  else if (match backup_dir with
    | some b => fs_exists o b && !isdirReal o b
    | none => false) then
    (.error "backup_dir has to be a directory", [])
  else if (match backup_dir with
    | some b => fs_exists o b && (o.listdir b).length > 0
    | none => false) then
    (.error "backup_dir must be empty", [])
  else if (match backup_dir with
    | some b => is_inside b cfg.overlay_dir
    | none => false) then
    (.error "backup_dir must not be (inside) overlay_dir", [])
  else
    match Tree.from_path o fuel cfg.overlay_dir none with
    | .error _ => (.error "error while building the overlay tree", [])
    | .ok overlay =>
      match Tree.translate overlay cfg.overlay_dir cfg.base_dir with
      | .error _ => (.error "error while translating the overlay tree", [])
      | .ok translation =>
        let classified := classify o cfg overlay translation
        let conflicting := classified.filter_children (fun t => t.getB "conflicting")
        if !conflicting.isEmpty && cfg.conflict == ConflictMode.errorMode then
          (.error ("Found and replaced conflicts:\n"
            ++ String.intercalate "\n" (conflicting.map (fun t => t.path.render))), [])
        else
          let remove := classified.filter_children (fun t => t.getB "remove")
          let linkL := classified.filter_children (fun t => t.getB "link")
          let statL := classified.filter_children (fun t => t.getB "stat")
          let result := update_result cfg.base_dir backup_dir remove linkL statL
          if cfg.check_mode then
            (.ok result, [])
          else
            (.ok result,
              remove_trees_trace cfg.base_dir backup_dir remove
                ++ create_links_trace cfg.relative_links linkL
                ++ change_stats_trace statL)

/-! ## Generic lemmas about trees, props and traversals -/

instance : Inhabited Tree := ⟨.node ⟨true, []⟩ none [] []⟩

theorem Tree.myInd (P : Tree → Prop)
    (h : ∀ p d pr cs, (∀ c ∈ cs, P c) → P (.node p d pr cs)) : ∀ t, P t := by
  intro t
  refine @Tree.rec P (fun l => ∀ c ∈ l, P c) ?_ ?_ ?_ t
  · intro p d pr cs ih
    exact h p d pr cs ih
  · intro c hc
    cases hc
  · intro hd tl hhd htl c hc
    rcases hc with _ | h'
    · exact hhd
    · exact htl c (by assumption)

theorem setAllByList_eq (key : String) (f : Tree → Bool) (ts : List Tree) :
    Tree.setAllByList key f ts = ts.map (Tree.setAllBy key f) := by
  induction ts with
  | nil => simp [Tree.setAllByList]
  | cons t ts ih => simp [Tree.setAllByList, ih]

theorem nodesList_eq (ts : List Tree) :
    Tree.nodesList ts = ts.flatMap Tree.nodes := by
  induction ts with
  | nil => simp [Tree.nodesList]
  | cons t ts ih => simp [Tree.nodesList, ih]

theorem nodesWAList_eq (anc : List Tree) (ts : List Tree) :
    Tree.nodesWAList anc ts = ts.flatMap (Tree.nodesWA anc) := by
  induction ts with
  | nil => simp [Tree.nodesWAList]
  | cons t ts ih => simp [Tree.nodesWAList, ih]

theorem filterTList_eq (f : Tree → Bool) (ts : List Tree) :
    Tree.filterTList f ts = ts.flatMap (Tree.filterT f) := by
  induction ts with
  | nil => simp [Tree.filterTList]
  | cons t ts ih => simp [Tree.filterTList, ih]

theorem anyTList_eq (f : Tree → Bool) (ts : List Tree) :
    Tree.anyTList f ts = ts.any (Tree.anyT f) := by
  induction ts with
  | nil => simp [Tree.anyTList]
  | cons t ts ih => simp [Tree.anyTList, ih]

theorem plookup_cons_other (k key : String) (v : PropVal) (pr : List (String × PropVal))
    (h : k ≠ key) : plookup ((k, v) :: pr) key = plookup pr key := by
  simp [plookup, h]

theorem plookup_cons_same (key : String) (v : PropVal) (pr : List (String × PropVal)) :
    plookup ((key, v) :: pr) key = some v := by
  simp [plookup]

theorem getB_node_cons_same (p : Pth) (d : Option Int) (key : String) (x : Bool)
    (pr : List (String × PropVal)) (cs : List Tree) :
    (Tree.node p d ((key, .b x) :: pr) cs).getB key = x := by
  simp [Tree.getB, Tree.props, plookup_cons_same]

theorem getB_node_cons_other (p : Pth) (d : Option Int) (k key : String) (v : PropVal)
    (pr : List (String × PropVal)) (cs : List Tree) (h : k ≠ key) :
    (Tree.node p d ((k, v) :: pr) cs).getB key = (Tree.node p d pr cs).getB key := by
  simp [Tree.getB, Tree.props, plookup_cons_other _ _ _ _ h]

theorem getPath_node_cons_other (p : Pth) (d : Option Int) (k key : String) (v : PropVal)
    (pr : List (String × PropVal)) (cs : List Tree) (h : k ≠ key) :
    (Tree.node p d ((k, v) :: pr) cs).getPath key = (Tree.node p d pr cs).getPath key := by
  simp [Tree.getPath, Tree.props, plookup_cons_other _ _ _ _ h]

/-- Every node under `setAllBy key (fun _ => v)` carries `key = v`. -/
theorem setAllBy_const_getB (key : String) (v : Bool) :
    ∀ t, ∀ n ∈ (Tree.setAllBy key (fun _ => v) t).nodes, n.getB key = v := by
  intro t
  induction t using Tree.myInd with
  | h p d pr cs ih =>
    intro n hn
    rw [Tree.setAllBy] at hn
    rw [Tree.nodes, nodesList_eq] at hn
    rw [List.mem_cons] at hn
    rcases hn with hn | hn
    · subst hn
      exact getB_node_cons_same ..
    · rw [setAllByList_eq] at hn
      simp only [List.flatMap_map, List.mem_flatMap] at hn
      obtain ⟨c, hc, hmem⟩ := hn
      exact ih c hc n hmem

/-- The first component of a `nodesWA` pair is a node of the tree. -/
theorem nodesWA_fst_mem :
    ∀ t anc0 n anc, (n, anc) ∈ Tree.nodesWA anc0 t → n ∈ t.nodes := by
  intro t
  induction t using Tree.myInd with
  | h p d pr cs ih =>
    intro anc0 n anc hmem
    rw [Tree.nodesWA, nodesWAList_eq] at hmem
    rw [Tree.nodes, nodesList_eq]
    rw [List.mem_cons] at hmem
    rw [List.mem_cons]
    rcases hmem with hmem | hmem
    · simp only [Prod.mk.injEq] at hmem
      exact Or.inl hmem.1
    · simp only [List.mem_flatMap] at hmem
      obtain ⟨c, hc, hmem⟩ := hmem
      refine Or.inr ?_
      simp only [List.mem_flatMap]
      exact ⟨c, hc, ih c hc _ n anc hmem⟩

/-- The recorded ancestor list always extends the accumulator. -/
theorem nodesWA_anc_suffix :
    ∀ t anc0 n anc, (n, anc) ∈ Tree.nodesWA anc0 t → ∃ pre, anc = pre ++ anc0 := by
  intro t
  induction t using Tree.myInd with
  | h p d pr cs ih =>
    intro anc0 n anc hmem
    rw [Tree.nodesWA, nodesWAList_eq] at hmem
    rw [List.mem_cons] at hmem
    rcases hmem with hmem | hmem
    · simp only [Prod.mk.injEq] at hmem
      exact ⟨[], by simp [hmem.2]⟩
    · simp only [List.mem_flatMap] at hmem
      obtain ⟨c, hc, hmem⟩ := hmem
      obtain ⟨pre, hpre⟩ := ih c hc _ n anc hmem
      exact ⟨pre ++ [Tree.node p d pr cs], by simp [hpre]⟩

/-- A child of a listed node is listed with the node as nearest ancestor. -/
theorem nodesWA_child_mem :
    ∀ t anc0 n anc, (n, anc) ∈ Tree.nodesWA anc0 t →
      ∀ c ∈ n.children, (c, n :: anc) ∈ Tree.nodesWA anc0 t := by
  intro t
  induction t using Tree.myInd with
  | h p d pr cs ih =>
    intro anc0 n anc hmem c hc
    rw [Tree.nodesWA, nodesWAList_eq] at hmem
    rw [Tree.nodesWA, nodesWAList_eq]
    rw [List.mem_cons] at hmem
    rw [List.mem_cons]
    rcases hmem with hmem | hmem
    · simp only [Prod.mk.injEq] at hmem
      refine Or.inr ?_
      simp only [List.mem_flatMap]
      rcases hmem with ⟨h1, h2⟩
      subst h2
      have hc' : c ∈ cs := by
        rw [h1] at hc
        simpa [Tree.children] using hc
      refine ⟨c, hc', ?_⟩
      subst h1
      cases c with
      | node cp cd cpr ccs =>
        rw [Tree.nodesWA]
        exact List.mem_cons_self _ _
    · simp only [List.mem_flatMap] at hmem ⊢
      obtain ⟨ct, hct, hmem⟩ := hmem
      exact Or.inr ⟨ct, hct, ih ct hct _ n anc hmem c hc⟩

theorem mark_symlinked_auxList_eq (o : FSOracle) (ts : List Tree) :
    mark_symlinked_auxList o ts = ts.map (mark_symlinked_aux o) := by
  induction ts with
  | nil => simp [mark_symlinked_auxList]
  | cons t ts ih => simp [mark_symlinked_auxList, ih]

theorem mark_overlaid_auxList_eq (o : FSOracle) (rl : Bool) (ts : List Tree) :
    mark_overlaid_auxList o rl ts = ts.map (mark_overlaid_aux o rl) := by
  induction ts with
  | nil => simp [mark_overlaid_auxList]
  | cons t ts ih => simp [mark_overlaid_auxList, ih]

theorem mark_broken_auxList_eq (o : FSOracle) (ov : Tree) (ts : List Tree) :
    mark_broken_auxList o ov ts = ts.map (mark_broken_aux o ov) := by
  induction ts with
  | nil => simp [mark_broken_auxList]
  | cons t ts ih => simp [mark_broken_auxList, ih]

theorem mark_conflicting_auxList_eq (o : FSOracle) (ts : List Tree) :
    mark_conflicting_auxList o ts = ts.map (mark_conflicting_aux o) := by
  induction ts with
  | nil => simp [mark_conflicting_auxList]
  | cons t ts ih => simp [mark_conflicting_auxList, ih]

theorem mark_collapsed_auxList_eq (ts : List Tree) :
    mark_collapsed_auxList ts = ts.map mark_collapsed_aux := by
  induction ts with
  | nil => simp [mark_collapsed_auxList]
  | cons t ts ih => simp [mark_collapsed_auxList, ih]

theorem mark_collapsible_auxList_eq (o : FSOracle) (rp : Bool) (ov : Tree) (ts : List Tree) :
    mark_collapsible_auxList o rp ov ts = ts.map (mark_collapsible_aux o rp ov) := by
  induction ts with
  | nil => simp [mark_collapsible_auxList]
  | cons t ts ih => simp [mark_collapsible_auxList, ih]

theorem mark_removable_auxList_eq (o : FSOracle) (cl rp : Bool) (ts : List Tree) :
    mark_removable_auxList o cl rp ts = ts.map (mark_removable_aux o cl rp) := by
  induction ts with
  | nil => simp [mark_removable_auxList]
  | cons t ts ih => simp [mark_removable_auxList, ih]

theorem mark_remove_auxList_eq (ts : List Tree) :
    mark_remove_auxList ts = ts.map mark_remove_aux := by
  induction ts with
  | nil => simp [mark_remove_auxList]
  | cons t ts ih => simp [mark_remove_auxList, ih]

theorem mark_link_auxList_eq (cl : Bool) (ts : List Tree) :
    mark_link_auxList cl ts = ts.map (mark_link_aux cl) := by
  induction ts with
  | nil => simp [mark_link_auxList]
  | cons t ts ih => simp [mark_link_auxList, ih]

theorem mark_stat_auxList_eq (o : FSOracle) (ts : List Tree) :
    mark_stat_auxList o ts = ts.map (mark_stat_aux o) := by
  induction ts with
  | nil => simp [mark_stat_auxList]
  | cons t ts ih => simp [mark_stat_auxList, ih]

/-! ## Characterization of the `symlinked` pass -/

theorem mark_symlinked_aux_char (o : FSOracle) :
    ∀ t anc0, anc0.any (fun a => o.islink a.path) = false →
      ∀ n anc, (n, anc) ∈ Tree.nodesWA anc0 (mark_symlinked_aux o t) →
        n.getB "symlinked" = anc.any (fun a => o.islink a.path) := by
  intro t
  induction t using Tree.myInd with
  | h p d pr cs ih =>
    intro anc0 h0 n anc hmem
    rw [mark_symlinked_aux] at hmem
    by_cases hl : o.islink p
    · rw [if_pos hl] at hmem
      rw [Tree.nodesWA, nodesWAList_eq] at hmem
      rw [List.mem_cons] at hmem
      rcases hmem with hmem | hmem
      · simp only [Prod.mk.injEq] at hmem
        rw [hmem.1, hmem.2, h0]
        exact getB_node_cons_same ..
      · simp only [List.mem_flatMap] at hmem
        obtain ⟨c, hc, hmem⟩ := hmem
        rw [setAllByList_eq, List.mem_map] at hc
        obtain ⟨c0, hc0mem, hc0⟩ := hc
        subst hc0
        have hn : n.getB "symlinked" = true :=
          setAllBy_const_getB _ _ c0 n (nodesWA_fst_mem _ _ _ _ hmem)
        obtain ⟨pre, hpre⟩ := nodesWA_anc_suffix _ _ _ _ hmem
        rw [hn, hpre]
        simp [Tree.path, hl]
    · rw [if_neg hl] at hmem
      rw [Tree.nodesWA, nodesWAList_eq] at hmem
      rw [List.mem_cons] at hmem
      rcases hmem with hmem | hmem
      · simp only [Prod.mk.injEq] at hmem
        rw [hmem.1, hmem.2, h0]
        exact getB_node_cons_same ..
      · simp only [List.mem_flatMap] at hmem
        obtain ⟨c, hc, hmem⟩ := hmem
        rw [mark_symlinked_auxList_eq, List.mem_map] at hc
        obtain ⟨c0, hc0mem, hc0⟩ := hc
        subst hc0
        refine ih c0 hc0mem _ ?_ n anc hmem
        rw [List.any_cons]
        have hl' : o.islink p = false := by simpa using hl
        simp only [Tree.path, hl', Bool.false_or]
        exact h0

/-- A do-nothing filesystem: no entries at all. -/
def trivOracle : FSOracle where
  islink := fun _ => false
  fsexists := fun _ => false
  isdir := fun _ => false
  linkTarget := fun _ => ⟨true, []⟩
  linkRel := fun _ => false
  listdir := fun _ => []
  walk := fun _ => []
  samefile := fun _ _ => false
  equal_mode := fun _ _ => false
  equal_owner := fun _ _ => false
  chmodFollow := false
  chownFollow := true

/-- C2 (amended): after the `symlinked` pass, for every node below the
synthetic root, the fact `symlinked` is true iff a STRICT ancestor of the node
below the root is currently a filesystem symlink; the node itself being a
symlink does not count. -/
theorem claim_C2_amended (o : FSOracle) (translation : Tree) :
    ∀ pr ∈ (mark_symlinked o translation).childrenWA,
      pr.1.getB "symlinked" = pr.2.any (fun a => o.islink a.path) := by
  intro pr hpr
  obtain ⟨n, anc⟩ := pr
  rw [Tree.childrenWA] at hpr
  have hch : (mark_symlinked o translation).children
      = mark_symlinked_auxList o translation.children := by
    simp [mark_symlinked, Tree.children]
  rw [hch, nodesWAList_eq, mark_symlinked_auxList_eq] at hpr
  simp only [List.flatMap_map, List.mem_flatMap] at hpr
  obtain ⟨c0, _, hmem⟩ := hpr
  exact mark_symlinked_aux_char o c0 [] rfl n anc hmem

/-- Base-side path of the single node of the C2 scenario: the node is itself
a symlink (and has no symlinked ancestor). -/
def cex2Path : Pth := ⟨true, ["b", "x"]⟩

/-- Filesystem of the C2 scenario: exactly `cex2Path` is a symlink. -/
def cex2Oracle : FSOracle :=
  { trivOracle with islink := fun p => p == cex2Path }

/-- Mapped tree of the C2 scenario (root `/b`, single child `/b/x`). -/
def cex2Root : Tree := .node ⟨true, ["b"]⟩ none [] [.node cex2Path none [] []]

/-- C2 counterexample: the claim as stated —`symlinked` true iff the node
ITSELF or a strict ancestor is a symlink — is false on the code: a node that
is itself a symlink (with no symlink ancestor) gets `symlinked = False`. -/
theorem claim_C2_counterexample :
    ¬ (∀ pr ∈ (mark_symlinked cex2Oracle cex2Root).childrenWA,
        pr.1.getB "symlinked"
          = (cex2Oracle.islink pr.1.path || pr.2.any (fun a => cex2Oracle.islink a.path))) := by
  decide

/-- Witness for the amended C2 theorem at the concrete scenario. -/
theorem claim_C2_witness :
    (Tree.node cex2Path none [("symlinked", PropVal.b false)] [],
        ([] : List Tree)).1.getB "symlinked"
      = (Tree.node cex2Path none [("symlinked", PropVal.b false)] [],
        ([] : List Tree)).2.any (fun a => cex2Oracle.islink a.path) :=
  claim_C2_amended cex2Oracle cex2Root _ (List.Mem.head _)

/-- `getB` reads only the props, never the children. -/
theorem getB_children_irrel (p : Pth) (d : Option Int) (pr : List (String × PropVal))
    (cs cs' : List Tree) (key : String) :
    (Tree.node p d pr cs).getB key = (Tree.node p d pr cs').getB key := rfl

/-! ## Characterization of the `remove` pass -/

theorem mark_remove_aux_char :
    ∀ t anc0, (∀ a ∈ anc0, a.getB "removable" = false) →
      ∀ n anc, (n, anc) ∈ Tree.nodesWA anc0 (mark_remove_aux t) →
        n.getB "remove" = (n.getB "removable" && anc.all (fun a => !a.getB "removable")) := by
  intro t
  induction t using Tree.myInd with
  | h p d pr cs ih =>
    intro anc0 h0 n anc hmem
    rw [mark_remove_aux] at hmem
    by_cases hrm : (Tree.node p d pr cs).getB "removable"
    · rw [if_pos hrm] at hmem
      rw [Tree.nodesWA, nodesWAList_eq] at hmem
      rw [List.mem_cons] at hmem
      have hrm' : ∀ cs', (Tree.node p d pr cs').getB "removable" = true := by
        intro cs'
        rw [getB_children_irrel p d pr cs' cs]
        exact hrm
      rcases hmem with hmem | hmem
      · simp only [Prod.mk.injEq] at hmem
        rw [hmem.1, hmem.2]
        rw [getB_node_cons_same]
        rw [getB_node_cons_other _ _ _ _ _ _ _ (by decide), hrm']
        have hall : anc0.all (fun a => !a.getB "removable") = true := by
          rw [List.all_eq_true]
          intro a ha
          rw [h0 a ha]
          rfl
        rw [hall]
        rfl
      · simp only [List.mem_flatMap] at hmem
        obtain ⟨c, hc, hmem⟩ := hmem
        rw [setAllByList_eq, List.mem_map] at hc
        obtain ⟨c0, hc0mem, hc0⟩ := hc
        subst hc0
        have hn : n.getB "remove" = false :=
          setAllBy_const_getB _ _ c0 n (nodesWA_fst_mem _ _ _ _ hmem)
        obtain ⟨pre, hpre⟩ := nodesWA_anc_suffix _ _ _ _ hmem
        rw [hn, hpre]
        rw [List.all_append, List.all_cons]
        rw [getB_node_cons_other _ _ _ _ _ _ _ (by decide), hrm']
        simp
    · rw [if_neg hrm] at hmem
      rw [Tree.nodesWA, nodesWAList_eq] at hmem
      rw [List.mem_cons] at hmem
      rcases hmem with hmem | hmem
      · simp only [Prod.mk.injEq] at hmem
        rw [hmem.1, hmem.2]
        rw [getB_node_cons_same]
        rw [getB_node_cons_other _ _ _ _ _ _ _ (by decide)]
        have hrm' : (Tree.node p d pr (mark_remove_auxList cs)).getB "removable" = false := by
          rw [getB_children_irrel p d pr _ cs]
          simpa using hrm
        rw [hrm']
        rfl
      · simp only [List.mem_flatMap] at hmem
        obtain ⟨c, hc, hmem⟩ := hmem
        rw [mark_remove_auxList_eq, List.mem_map] at hc
        obtain ⟨c0, hc0mem, hc0⟩ := hc
        subst hc0
        refine ih c0 hc0mem _ ?_ n anc hmem
        intro a ha
        rw [List.mem_cons] at ha
        rcases ha with ha | ha
        · subst ha
          rw [getB_node_cons_other _ _ _ _ _ _ _ (by decide)]
          simpa using hrm
        · exact h0 a ha

/-- Skip one foreign binding and forget the children in a `getB` read. -/
theorem getB_skip (p : Pth) (d : Option Int) (k key : String) (v : PropVal)
    (pr : List (String × PropVal)) (cs cs' : List Tree) (h : k ≠ key) :
    (Tree.node p d ((k, v) :: pr) cs).getB key = (Tree.node p d pr cs').getB key :=
  (getB_node_cons_other p d k key v pr cs h).trans (getB_children_irrel p d pr cs cs' key)

theorem mark_remove_children_char (translation : Tree) :
    ∀ pr ∈ (mark_remove translation).childrenWA,
      pr.1.getB "remove"
        = (pr.1.getB "removable" && pr.2.all (fun a => !a.getB "removable")) := by
  intro pr hpr
  obtain ⟨n, anc⟩ := pr
  rw [Tree.childrenWA] at hpr
  have hch : (mark_remove translation).children = mark_remove_auxList translation.children := by
    simp [mark_remove, Tree.children]
  rw [hch, nodesWAList_eq, mark_remove_auxList_eq] at hpr
  simp only [List.flatMap_map, List.mem_flatMap] at hpr
  obtain ⟨c0, _, hmem⟩ := hpr
  exact mark_remove_aux_char c0 [] (by intro a ha; cases ha) n anc hmem

/-- C4: after the `remove` pass, for every node of the mapped tree, `remove`
holds iff `removable` holds and no strict ancestor below the synthetic root is
`removable`; in particular no child of a `remove` node is itself `remove`. -/
theorem claim_C4 (translation : Tree) :
    ∀ pr ∈ (mark_remove translation).childrenWA,
      (pr.1.getB "remove"
        = (pr.1.getB "removable" && pr.2.all (fun a => !a.getB "removable")))
      ∧ (pr.1.getB "remove" = true →
          ∀ c ∈ pr.1.children, c.getB "remove" = false) := by
  intro pr hpr
  obtain ⟨n, anc⟩ := pr
  refine ⟨mark_remove_children_char translation (n, anc) hpr, ?_⟩
  intro hrem c hc
  rw [Tree.childrenWA] at hpr
  have hch : (mark_remove translation).children = mark_remove_auxList translation.children := by
    simp [mark_remove, Tree.children]
  rw [hch, nodesWAList_eq, mark_remove_auxList_eq] at hpr
  simp only [List.flatMap_map, List.mem_flatMap] at hpr
  obtain ⟨c0, _, hmem⟩ := hpr
  have hcmem : (c, n :: anc) ∈ Tree.nodesWA [] (mark_remove_aux c0) :=
    nodesWA_child_mem _ [] n anc hmem c hc
  have hc_char :=
    mark_remove_aux_char c0 [] (by intro a ha; cases ha) c (n :: anc) hcmem
  have hn_char :=
    mark_remove_aux_char c0 [] (by intro a ha; cases ha) n anc hmem
  rw [hrem] at hn_char
  have hnrem : n.getB "removable" = true := by
    rcases Bool.and_eq_true_iff.mp hn_char.symm with ⟨h1, _⟩
    exact h1
  rw [hc_char, List.all_cons, hnrem]
  simp

/-- Mapped tree for the C4 witness: a `removable` subtree below the root. -/
def wit4Tree : Tree :=
  .node ⟨true, ["b"]⟩ none []
    [.node ⟨true, ["b", "y"]⟩ none [("removable", PropVal.b true)]
      [.node ⟨true, ["b", "y", "z"]⟩ none [("removable", PropVal.b true)] []]]

/-- The topmost removable node of `wit4Tree` after the `remove` pass. -/
def wit4Marked : Tree :=
  .node ⟨true, ["b", "y"]⟩ none [("remove", PropVal.b true), ("removable", PropVal.b true)]
    [.node ⟨true, ["b", "y", "z"]⟩ none
      [("remove", PropVal.b false), ("removable", PropVal.b true)] []]

/-- Witness for the C4 theorem at the concrete tree. -/
theorem claim_C4_witness :
    ((wit4Marked, ([] : List Tree)).1.getB "remove"
      = ((wit4Marked, ([] : List Tree)).1.getB "removable"
          && (wit4Marked, ([] : List Tree)).2.all (fun a => !a.getB "removable")))
    ∧ ((wit4Marked, ([] : List Tree)).1.getB "remove" = true →
        ∀ c ∈ (wit4Marked, ([] : List Tree)).1.children, c.getB "remove" = false) :=
  claim_C4 wit4Tree _ (List.Mem.head _)

/-! ## Characterization of the `conflicting` pass -/

theorem mark_conflicting_aux_char (o : FSOracle) :
    ∀ t, ∀ n ∈ (mark_conflicting_aux o t).nodes,
      n.getB "conflicting"
        = (!n.getB "symlinked" && fs_exists o n.path && !n.getB "is_dir"
            && !n.getB "overlaid" && !n.getB "broken") := by
  intro t
  induction t using Tree.myInd with
  | h p d pr cs ih =>
    intro n hn
    simp only [mark_conflicting_aux] at hn
    rw [Tree.nodes, nodesList_eq, List.mem_cons] at hn
    rcases hn with hn | hn
    · subst hn
      rw [getB_node_cons_same]
      rw [getB_skip p d "conflicting" "symlinked" _ pr (mark_conflicting_auxList o cs) cs
        (by decide)]
      rw [getB_skip p d "conflicting" "is_dir" _ pr (mark_conflicting_auxList o cs) cs
        (by decide)]
      rw [getB_skip p d "conflicting" "overlaid" _ pr (mark_conflicting_auxList o cs) cs
        (by decide)]
      rw [getB_skip p d "conflicting" "broken" _ pr (mark_conflicting_auxList o cs) cs
        (by decide)]
      rfl
    · simp only [List.mem_flatMap] at hn
      obtain ⟨c, hc, hmem⟩ := hn
      rw [mark_conflicting_auxList_eq, List.mem_map] at hc
      obtain ⟨c0, hc0mem, hc0⟩ := hc
      subst hc0
      exact ih c0 hc0mem n hmem

/-- C3 (amended): after the `conflicting` pass, for every node of the mapped
tree, `conflicting` holds iff `symlinked` is false, the node's current
(base-side) path exists on disk, the node's `is_dir` fact is false (i.e. the
corresponding OVERLAY path was not a real directory when the tree was built —
not a property of the base-side path), and `overlaid` and `broken` are both
false. -/
theorem claim_C3_amended (o : FSOracle) (translation : Tree) :
    ∀ n ∈ (mark_conflicting o translation).nodes_below,
      n.getB "conflicting"
        = (!n.getB "symlinked" && fs_exists o n.path && !n.getB "is_dir"
            && !n.getB "overlaid" && !n.getB "broken") := by
  intro n hn
  rw [Tree.nodes_below] at hn
  have hch : (mark_conflicting o translation).children
      = mark_conflicting_auxList o translation.children := by
    simp [mark_conflicting, Tree.children]
  rw [hch, nodesList_eq, mark_conflicting_auxList_eq] at hn
  simp only [List.flatMap_map, List.mem_flatMap] at hn
  obtain ⟨c0, _, hmem⟩ := hn
  exact mark_conflicting_aux_char o c0 n hmem

/-- C3 scenario: overlay `/o` contains the plain file `f`; the base side has a
REAL DIRECTORY at `/b/f`. -/
def cex3Oracle : FSOracle :=
  { trivOracle with
    fsexists := fun p =>
      p == ⟨true, ["o"]⟩ || p == ⟨true, ["o", "f"]⟩
        || p == ⟨true, ["b"]⟩ || p == ⟨true, ["b", "f"]⟩
    isdir := fun p =>
      p == ⟨true, ["o"]⟩ || p == ⟨true, ["b"]⟩ || p == ⟨true, ["b", "f"]⟩
    listdir := fun p => if p == ⟨true, ["o"]⟩ then ["f"] else [] }

/-- Overlay tree of the C3 scenario, built by `Tree.from_path`. -/
def cex3OverlayTree : Tree :=
  match Tree.from_path cex3Oracle 2 ⟨true, ["o"]⟩ none with
  | .ok t => t
  | .error _ => default

/-- Mapped tree of the C3 scenario. -/
def cex3Translation : Tree :=
  match cex3OverlayTree.translate ⟨true, ["o"]⟩ ⟨true, ["b"]⟩ with
  | .ok t => t
  | .error _ => default

/-- The C3 scenario after the pipeline up to and including `mark_conflicting`
(the passes `main` runs before it, in source order). -/
def cex3T4 : Tree :=
  mark_conflicting cex3Oracle
    (mark_broken cex3Oracle cex3OverlayTree
      (mark_overlaid cex3Oracle true
        (mark_symlinked cex3Oracle cex3Translation)))

/-- C3 counterexample: the claim as stated — `conflicting` iff not
`symlinked`, path exists, THE BASE-SIDE PATH IS NOT A REAL DIRECTORY, not
`overlaid`, not `broken` — is false on the code: the pass tests the `is_dir`
fact of the OVERLAY node, so an overlay file shadowed by a real base-side
directory is still marked conflicting. -/
theorem claim_C3_counterexample :
    ¬ (∀ n ∈ cex3T4.nodes_below,
        n.getB "conflicting"
          = (!n.getB "symlinked" && fs_exists cex3Oracle n.path
              && !(isdirReal cex3Oracle n.path)
              && !n.getB "overlaid" && !n.getB "broken")) := by
  decide

/-- Mapped tree for the C3 witness, with the facts of the earlier passes
already attached. -/
def wit3Tree : Tree :=
  .node ⟨true, ["b"]⟩ none []
    [.node ⟨true, ["b", "f"]⟩ none
      [("symlinked", PropVal.b false), ("is_dir", PropVal.b false),
        ("overlaid", PropVal.b false), ("broken", PropVal.b false)] []]

/-- The single mapped node of `wit3Tree` after the `conflicting` pass. -/
def wit3Marked : Tree :=
  .node ⟨true, ["b", "f"]⟩ none
    [("conflicting", PropVal.b false),
      ("symlinked", PropVal.b false), ("is_dir", PropVal.b false),
      ("overlaid", PropVal.b false), ("broken", PropVal.b false)] []

/-- Witness for the amended C3 theorem at a concrete tree. -/
theorem claim_C3_witness :
    wit3Marked.getB "conflicting"
      = (!wit3Marked.getB "symlinked" && fs_exists trivOracle wit3Marked.path
          && !wit3Marked.getB "is_dir"
          && !wit3Marked.getB "overlaid" && !wit3Marked.getB "broken") :=
  claim_C3_amended trivOracle wit3Tree _ (List.Mem.head _)

/-! ## Prop-preservation between passes

`agreeOn keys t u`: the trees have identical shape and paths, and for every
key in `keys` identical prop lookups per node.  Every pass agrees with its
input on all keys other than the one it writes. -/

mutual
def agreeOn (keys : List String) : Tree → Tree → Bool
  | .node p _ pr cs, .node p' _ pr' cs' =>
    p == p' && (keys.all fun k => plookup pr k == plookup pr' k) && agreeOnList keys cs cs'

def agreeOnList (keys : List String) : List Tree → List Tree → Bool
  | [], [] => true
  | t :: ts, u :: us => agreeOn keys t u && agreeOnList keys ts us
  | _, _ => false
end

theorem getB_congr (n n' : Tree) (k : String)
    (h : plookup n.props k = plookup n'.props k) : n.getB k = n'.getB k := by
  simp [Tree.getB, h]

/-- List-level transfer of nodes through `agreeOnList`, given the tree-level
transfer for the elements of the first list. -/
theorem agreeOnList_nodes (keys : List String) :
    ∀ (as bs : List Tree),
      (∀ c ∈ as, ∀ u, agreeOn keys c u = true →
        ∀ n' ∈ u.nodes, ∃ n ∈ c.nodes, n'.path = n.path ∧
          ∀ k ∈ keys, plookup n'.props k = plookup n.props k) →
      agreeOnList keys as bs = true →
      ∀ n' ∈ Tree.nodesList bs, ∃ n ∈ Tree.nodesList as, n'.path = n.path ∧
        ∀ k ∈ keys, plookup n'.props k = plookup n.props k := by
  intro as
  induction as with
  | nil =>
    intro bs _ hag n' hn'
    cases bs with
    | nil => cases (by simp [Tree.nodesList] at hn' : False)
    | cons b bs => simp [agreeOnList] at hag
  | cons a as ihl =>
    intro bs helem hag n' hn'
    cases bs with
    | nil => simp [agreeOnList] at hag
    | cons b bs =>
      rw [agreeOnList] at hag
      simp only [Bool.and_eq_true] at hag
      rw [Tree.nodesList, List.mem_append] at hn'
      rcases hn' with hn' | hn'
      · obtain ⟨n, hnmem, hrest⟩ :=
          helem a (List.mem_cons_self _ _) b hag.1 n' hn'
        refine ⟨n, ?_, hrest⟩
        rw [Tree.nodesList, List.mem_append]
        exact Or.inl hnmem
      · obtain ⟨n, hnmem, hrest⟩ :=
          ihl bs (fun c hc => helem c (List.mem_cons_of_mem _ hc)) hag.2 n' hn'
        refine ⟨n, ?_, hrest⟩
        rw [Tree.nodesList, List.mem_append]
        exact Or.inr hnmem

/-- Transfer of nodes through `agreeOn`: every node of `u` has a
corresponding node of `t` with the same path and the same lookups on `keys`. -/
theorem agreeOn_nodes :
    ∀ t u keys, agreeOn keys t u = true →
      ∀ n' ∈ u.nodes, ∃ n ∈ t.nodes,
        n'.path = n.path ∧ ∀ k ∈ keys, plookup n'.props k = plookup n.props k := by
  intro t
  induction t using Tree.myInd with
  | h p d pr cs ih =>
    intro u keys hag n' hn'
    cases u with
    | node q e qr ds =>
      rw [agreeOn] at hag
      simp only [Bool.and_eq_true, beq_iff_eq] at hag
      obtain ⟨⟨hpq, hpr⟩, hcs⟩ := hag
      rw [Tree.nodes, List.mem_cons] at hn'
      rcases hn' with hn' | hn'
      · refine ⟨Tree.node p d pr cs, ?_, ?_, ?_⟩
        · rw [Tree.nodes]
          exact List.mem_cons_self _ _
        · rw [hn']
          simp [Tree.path, hpq]
        · intro k hk
          rw [hn']
          simp only [Tree.props]
          rw [List.all_eq_true] at hpr
          have := hpr k hk
          simp only [beq_iff_eq] at this
          exact this.symm
      · obtain ⟨n, hnmem, hrest⟩ :=
          agreeOnList_nodes keys cs ds (fun c hc u => ih c hc u keys) hcs n' hn'
        refine ⟨n, ?_, hrest⟩
        rw [Tree.nodes]
        exact List.mem_cons_of_mem _ hnmem

theorem agreeOn_trans_list (keys : List String) :
    ∀ (as bs cs2 : List Tree),
      (∀ a ∈ as, ∀ b c, agreeOn keys a b = true → agreeOn keys b c = true →
        agreeOn keys a c = true) →
      agreeOnList keys as bs = true → agreeOnList keys bs cs2 = true →
      agreeOnList keys as cs2 = true := by
  intro as
  induction as with
  | nil =>
    intro bs cs2 _ h1 h2
    cases bs with
    | nil => cases cs2 with
      | nil => rfl
      | cons c cs2 => simp [agreeOnList] at h2
    | cons b bs => simp [agreeOnList] at h1
  | cons a as ihl =>
    intro bs cs2 helem h1 h2
    cases bs with
    | nil => simp [agreeOnList] at h1
    | cons b bs =>
      cases cs2 with
      | nil => simp [agreeOnList] at h2
      | cons c cs2 =>
        rw [agreeOnList] at h1 h2 ⊢
        simp only [Bool.and_eq_true] at h1 h2 ⊢
        exact ⟨helem a (List.mem_cons_self _ _) b c h1.1 h2.1,
          ihl bs cs2 (fun x hx => helem x (List.mem_cons_of_mem _ hx)) h1.2 h2.2⟩

theorem agreeOn_trans :
    ∀ t u v keys, agreeOn keys t u = true → agreeOn keys u v = true →
      agreeOn keys t v = true := by
  intro t
  induction t using Tree.myInd with
  | h p d pr cs ih =>
    intro u v keys h1 h2
    cases u with
    | node q e qr ds =>
      cases v with
      | node r g rr es =>
        rw [agreeOn] at h1 h2 ⊢
        simp only [Bool.and_eq_true, beq_iff_eq, List.all_eq_true] at h1 h2 ⊢
        refine ⟨⟨h1.1.1.trans h2.1.1, ?_⟩, ?_⟩
        · intro k hk
          have a1 := h1.1.2 k hk
          have a2 := h2.1.2 k hk
          simp only [beq_iff_eq] at a1 a2 ⊢
          exact a1.trans a2
        · exact agreeOn_trans_list keys cs ds es
            (fun x hx b c => ih x hx b c keys) h1.2 h2.2

theorem plookup_all_cons (keys : List String) (key : String) (v : PropVal)
    (pr : List (String × PropVal)) (hk : key ∉ keys) :
    (keys.all fun k => plookup pr k == plookup ((key, v) :: pr) k) = true := by
  rw [List.all_eq_true]
  intro k hkk
  rw [plookup_cons_other key k v pr (by rintro rfl; exact hk hkk)]
  simp

theorem agreeOnList_map (keys : List String) (g : Tree → Tree) :
    ∀ as : List Tree, (∀ a ∈ as, agreeOn keys a (g a) = true) →
      agreeOnList keys as (as.map g) = true := by
  intro as
  induction as with
  | nil => intro _; rfl
  | cons a as ihl =>
    intro h
    rw [List.map_cons, agreeOnList]
    simp only [Bool.and_eq_true]
    exact ⟨h a (List.mem_cons_self _ _), ihl (fun x hx => h x (List.mem_cons_of_mem _ hx))⟩

mutual
theorem agreeOn_setAllBy (keys : List String) (key : String) (f : Tree → Bool)
    (hk : key ∉ keys) :
    ∀ t, agreeOn keys t (Tree.setAllBy key f t) = true
  | .node p d pr cs => by
    rw [Tree.setAllBy, agreeOn]
    simp only [Bool.and_eq_true, beq_self_eq_true, true_and]
    exact ⟨plookup_all_cons keys key _ pr hk, agreeOn_setAllByList keys key f hk cs⟩

theorem agreeOn_setAllByList (keys : List String) (key : String) (f : Tree → Bool)
    (hk : key ∉ keys) :
    ∀ ts, agreeOnList keys ts (Tree.setAllByList key f ts) = true
  | [] => rfl
  | t :: ts => by
    rw [Tree.setAllByList, agreeOnList]
    simp only [Bool.and_eq_true]
    exact ⟨agreeOn_setAllBy keys key f hk t, agreeOn_setAllByList keys key f hk ts⟩
end

/-- Lifting per-child agreement to a rebuilt children-only pass. -/
theorem agreeOn_top (keys : List String) (g : Tree → Tree) (t : Tree)
    (h : ∀ c ∈ t.children, agreeOn keys c (g c) = true) :
    agreeOn keys t (Tree.node t.path t.depth t.props (t.children.map g)) = true := by
  cases t with
  | node p d pr cs =>
    rw [agreeOn]
    simp only [Tree.path, Tree.depth, Tree.props, Tree.children] at *
    simp only [Bool.and_eq_true, beq_self_eq_true, true_and]
    refine ⟨?_, agreeOnList_map keys g cs h⟩
    rw [List.all_eq_true]
    intro k _
    simp

mutual
theorem agreeOn_mark_conflicting_aux (o : FSOracle) (keys : List String)
    (hk : "conflicting" ∉ keys) :
    ∀ t, agreeOn keys t (mark_conflicting_aux o t) = true
  | .node p d pr cs => by
    simp only [mark_conflicting_aux]
    rw [agreeOn]
    simp only [Bool.and_eq_true, beq_self_eq_true, true_and]
    exact ⟨plookup_all_cons keys "conflicting" _ pr hk,
      agreeOn_mark_conflicting_auxList o keys hk cs⟩

theorem agreeOn_mark_conflicting_auxList (o : FSOracle) (keys : List String)
    (hk : "conflicting" ∉ keys) :
    ∀ ts, agreeOnList keys ts (mark_conflicting_auxList o ts) = true
  | [] => rfl
  | t :: ts => by
    rw [mark_conflicting_auxList, agreeOnList]
    simp only [Bool.and_eq_true]
    exact ⟨agreeOn_mark_conflicting_aux o keys hk t,
      agreeOn_mark_conflicting_auxList o keys hk ts⟩
end

mutual
theorem agreeOn_mark_collapsed_aux (keys : List String) (hk : "collapsed" ∉ keys) :
    ∀ t, agreeOn keys t (mark_collapsed_aux t) = true
  | .node p d pr cs => by
    simp only [mark_collapsed_aux]
    rw [agreeOn]
    simp only [Bool.and_eq_true, beq_self_eq_true, true_and]
    exact ⟨plookup_all_cons keys "collapsed" _ pr hk,
      agreeOn_mark_collapsed_auxList keys hk cs⟩

theorem agreeOn_mark_collapsed_auxList (keys : List String) (hk : "collapsed" ∉ keys) :
    ∀ ts, agreeOnList keys ts (mark_collapsed_auxList ts) = true
  | [] => rfl
  | t :: ts => by
    rw [mark_collapsed_auxList, agreeOnList]
    simp only [Bool.and_eq_true]
    exact ⟨agreeOn_mark_collapsed_aux keys hk t,
      agreeOn_mark_collapsed_auxList keys hk ts⟩
end

mutual
theorem agreeOn_mark_collapsible_aux (o : FSOracle) (rp : Bool) (ov : Tree)
    (keys : List String) (hk : "collapsible" ∉ keys) :
    ∀ t, agreeOn keys t (mark_collapsible_aux o rp ov t) = true
  | .node p d pr cs => by
    simp only [mark_collapsible_aux]
    split
    · split
      · exact agreeOn_setAllBy keys "collapsible" _ hk _
      · rw [agreeOn]
        simp only [Bool.and_eq_true, beq_self_eq_true, true_and]
        exact ⟨plookup_all_cons keys "collapsible" _ pr hk,
          agreeOn_mark_collapsible_auxList o rp ov keys hk cs⟩
    · split
      · exact agreeOn_setAllBy keys "collapsible" _ hk _
      · rw [agreeOn]
        simp only [Bool.and_eq_true, beq_self_eq_true, true_and]
        exact ⟨plookup_all_cons keys "collapsible" _ pr hk,
          agreeOn_mark_collapsible_auxList o rp ov keys hk cs⟩

theorem agreeOn_mark_collapsible_auxList (o : FSOracle) (rp : Bool) (ov : Tree)
    (keys : List String) (hk : "collapsible" ∉ keys) :
    ∀ ts, agreeOnList keys ts (mark_collapsible_auxList o rp ov ts) = true
  | [] => rfl
  | t :: ts => by
    rw [mark_collapsible_auxList, agreeOnList]
    simp only [Bool.and_eq_true]
    exact ⟨agreeOn_mark_collapsible_aux o rp ov keys hk t,
      agreeOn_mark_collapsible_auxList o rp ov keys hk ts⟩
end

mutual
theorem agreeOn_mark_removable_aux (o : FSOracle) (cl rp : Bool)
    (keys : List String) (hk : "removable" ∉ keys) :
    ∀ t, agreeOn keys t (mark_removable_aux o cl rp t) = true
  | .node p d pr cs => by
    simp only [mark_removable_aux]
    split
    · rw [agreeOn]
      simp only [Bool.and_eq_true, beq_self_eq_true, true_and]
      exact ⟨plookup_all_cons keys "removable" _ pr hk,
        agreeOn_setAllByList keys "removable" _ hk cs⟩
    · rw [agreeOn]
      simp only [Bool.and_eq_true, beq_self_eq_true, true_and]
      exact ⟨plookup_all_cons keys "removable" _ pr hk,
        agreeOn_mark_removable_auxList o cl rp keys hk cs⟩

theorem agreeOn_mark_removable_auxList (o : FSOracle) (cl rp : Bool)
    (keys : List String) (hk : "removable" ∉ keys) :
    ∀ ts, agreeOnList keys ts (mark_removable_auxList o cl rp ts) = true
  | [] => rfl
  | t :: ts => by
    rw [mark_removable_auxList, agreeOnList]
    simp only [Bool.and_eq_true]
    exact ⟨agreeOn_mark_removable_aux o cl rp keys hk t,
      agreeOn_mark_removable_auxList o cl rp keys hk ts⟩
end

mutual
theorem agreeOn_mark_remove_aux (keys : List String) (hk : "remove" ∉ keys) :
    ∀ t, agreeOn keys t (mark_remove_aux t) = true
  | .node p d pr cs => by
    simp only [mark_remove_aux]
    split
    · rw [agreeOn]
      simp only [Bool.and_eq_true, beq_self_eq_true, true_and]
      exact ⟨plookup_all_cons keys "remove" _ pr hk,
        agreeOn_setAllByList keys "remove" _ hk cs⟩
    · rw [agreeOn]
      simp only [Bool.and_eq_true, beq_self_eq_true, true_and]
      exact ⟨plookup_all_cons keys "remove" _ pr hk,
        agreeOn_mark_remove_auxList keys hk cs⟩

theorem agreeOn_mark_remove_auxList (keys : List String) (hk : "remove" ∉ keys) :
    ∀ ts, agreeOnList keys ts (mark_remove_auxList ts) = true
  | [] => rfl
  | t :: ts => by
    rw [mark_remove_auxList, agreeOnList]
    simp only [Bool.and_eq_true]
    exact ⟨agreeOn_mark_remove_aux keys hk t, agreeOn_mark_remove_auxList keys hk ts⟩
end

mutual
theorem agreeOn_mark_link_aux (cl : Bool) (keys : List String) (hk : "link" ∉ keys) :
    ∀ t, agreeOn keys t (mark_link_aux cl t) = true
  | .node p d pr cs => by
    simp only [mark_link_aux]
    split
    · rw [agreeOn]
      simp only [Bool.and_eq_true, beq_self_eq_true, true_and]
      exact ⟨plookup_all_cons keys "link" _ pr hk,
        agreeOn_setAllByList keys "link" _ hk cs⟩
    · rw [agreeOn]
      simp only [Bool.and_eq_true, beq_self_eq_true, true_and]
      exact ⟨plookup_all_cons keys "link" _ pr hk,
        agreeOn_mark_link_auxList cl keys hk cs⟩

theorem agreeOn_mark_link_auxList (cl : Bool) (keys : List String) (hk : "link" ∉ keys) :
    ∀ ts, agreeOnList keys ts (mark_link_auxList cl ts) = true
  | [] => rfl
  | t :: ts => by
    rw [mark_link_auxList, agreeOnList]
    simp only [Bool.and_eq_true]
    exact ⟨agreeOn_mark_link_aux cl keys hk t, agreeOn_mark_link_auxList cl keys hk ts⟩
end

mutual
theorem agreeOn_mark_stat_aux (o : FSOracle) (keys : List String) (hk : "stat" ∉ keys) :
    ∀ t, agreeOn keys t (mark_stat_aux o t) = true
  | .node p d pr cs => by
    simp only [mark_stat_aux]
    split
    · rw [agreeOn]
      simp only [Bool.and_eq_true, beq_self_eq_true, true_and]
      exact ⟨plookup_all_cons keys "stat" _ pr hk,
        agreeOn_setAllByList keys "stat" _ hk cs⟩
    · rw [agreeOn]
      simp only [Bool.and_eq_true, beq_self_eq_true, true_and]
      exact ⟨plookup_all_cons keys "stat" _ pr hk,
        agreeOn_mark_stat_auxList o keys hk cs⟩

theorem agreeOn_mark_stat_auxList (o : FSOracle) (keys : List String) (hk : "stat" ∉ keys) :
    ∀ ts, agreeOnList keys ts (mark_stat_auxList o ts) = true
  | [] => rfl
  | t :: ts => by
    rw [mark_stat_auxList, agreeOnList]
    simp only [Bool.and_eq_true]
    exact ⟨agreeOn_mark_stat_aux o keys hk t, agreeOn_mark_stat_auxList o keys hk ts⟩
end

theorem agreeOn_mark_conflicting (o : FSOracle) (keys : List String)
    (hk : "conflicting" ∉ keys) (t : Tree) :
    agreeOn keys t (mark_conflicting o t) = true := by
  have h : mark_conflicting o t
      = Tree.node t.path t.depth t.props (t.children.map (mark_conflicting_aux o)) := by
    rw [mark_conflicting, mark_conflicting_auxList_eq]
  rw [h]
  exact agreeOn_top keys _ t (fun c _ => agreeOn_mark_conflicting_aux o keys hk c)

theorem agreeOn_mark_collapsed (keys : List String) (hk : "collapsed" ∉ keys) (t : Tree) :
    agreeOn keys t (mark_collapsed t) = true := by
  have h : mark_collapsed t
      = Tree.node t.path t.depth t.props (t.children.map mark_collapsed_aux) := by
    rw [mark_collapsed, mark_collapsed_auxList_eq]
  rw [h]
  exact agreeOn_top keys _ t (fun c _ => agreeOn_mark_collapsed_aux keys hk c)

theorem agreeOn_mark_collapsible (o : FSOracle) (rp : Bool) (ov : Tree)
    (keys : List String) (hk : "collapsible" ∉ keys) (t : Tree) :
    agreeOn keys t (mark_collapsible o rp ov t) = true := by
  have h : mark_collapsible o rp ov t
      = Tree.node t.path t.depth t.props (t.children.map (mark_collapsible_aux o rp ov)) := by
    rw [mark_collapsible, mark_collapsible_auxList_eq]
  rw [h]
  exact agreeOn_top keys _ t (fun c _ => agreeOn_mark_collapsible_aux o rp ov keys hk c)

theorem agreeOn_mark_removable (o : FSOracle) (cl rp : Bool)
    (keys : List String) (hk : "removable" ∉ keys) (t : Tree) :
    agreeOn keys t (mark_removable o cl rp t) = true := by
  have h : mark_removable o cl rp t
      = Tree.node t.path t.depth t.props (t.children.map (mark_removable_aux o cl rp)) := by
    rw [mark_removable, mark_removable_auxList_eq]
  rw [h]
  exact agreeOn_top keys _ t (fun c _ => agreeOn_mark_removable_aux o cl rp keys hk c)

theorem agreeOn_mark_remove (keys : List String) (hk : "remove" ∉ keys) (t : Tree) :
    agreeOn keys t (mark_remove t) = true := by
  have h : mark_remove t
      = Tree.node t.path t.depth t.props (t.children.map mark_remove_aux) := by
    rw [mark_remove, mark_remove_auxList_eq]
  rw [h]
  exact agreeOn_top keys _ t (fun c _ => agreeOn_mark_remove_aux keys hk c)

theorem agreeOn_mark_link (cl : Bool) (keys : List String) (hk : "link" ∉ keys) (t : Tree) :
    agreeOn keys t (mark_link cl t) = true := by
  have h : mark_link cl t
      = Tree.node t.path t.depth t.props (t.children.map (mark_link_aux cl)) := by
    rw [mark_link, mark_link_auxList_eq]
  rw [h]
  exact agreeOn_top keys _ t (fun c _ => agreeOn_mark_link_aux cl keys hk c)

theorem agreeOn_mark_stat (o : FSOracle) (keys : List String) (hk : "stat" ∉ keys) (t : Tree) :
    agreeOn keys t (mark_stat o t) = true := by
  have h : mark_stat o t
      = Tree.node t.path t.depth t.props (t.children.map (mark_stat_aux o)) := by
    rw [mark_stat, mark_stat_auxList_eq]
  rw [h]
  exact agreeOn_top keys _ t (fun c _ => agreeOn_mark_stat_aux o keys hk c)

/-- Transfer of below-root nodes through `agreeOn`. -/
theorem agreeOn_nodes_below (t u : Tree) (keys : List String)
    (h : agreeOn keys t u = true) :
    ∀ n' ∈ u.nodes_below, ∃ n ∈ t.nodes_below, n'.path = n.path ∧
      ∀ k ∈ keys, plookup n'.props k = plookup n.props k := by
  cases t with
  | node p d pr cs =>
    cases u with
    | node q e qr ds =>
      rw [agreeOn] at h
      simp only [Bool.and_eq_true] at h
      exact agreeOnList_nodes keys cs ds (fun c hc u => agreeOn_nodes c u keys) h.2

/-! ## Characterization of the `broken` pass -/

theorem mark_broken_aux_char (o : FSOracle) (ov : Tree) :
    ∀ t, ∀ n ∈ (mark_broken_aux o ov t).nodes,
      n.getB "broken"
        = (!n.getB "symlinked" && points_into o n.path ov.path && !n.getB "overlaid") := by
  intro t
  induction t using Tree.myInd with
  | h p d pr cs ih =>
    intro n hn
    simp only [mark_broken_aux] at hn
    rw [Tree.nodes, nodesList_eq, List.mem_cons] at hn
    rcases hn with hn | hn
    · subst hn
      rw [getB_node_cons_same]
      rw [getB_skip p d "broken" "symlinked" _ pr (mark_broken_auxList o ov cs) cs (by decide)]
      rw [getB_skip p d "broken" "overlaid" _ pr (mark_broken_auxList o ov cs) cs (by decide)]
      rfl
    · simp only [List.mem_flatMap] at hn
      obtain ⟨c, hc, hmem⟩ := hn
      rw [mark_broken_auxList_eq, List.mem_map] at hc
      obtain ⟨c0, hc0mem, hc0⟩ := hc
      subst hc0
      exact ih c0 hc0mem n hmem

theorem mark_broken_children_char (o : FSOracle) (ov : Tree) (translation : Tree) :
    ∀ n ∈ (mark_broken o ov translation).nodes_below,
      n.getB "broken"
        = (!n.getB "symlinked" && points_into o n.path ov.path && !n.getB "overlaid") := by
  intro n hn
  rw [Tree.nodes_below] at hn
  have hch : (mark_broken o ov translation).children
      = mark_broken_auxList o ov translation.children := by
    simp [mark_broken, Tree.children]
  rw [hch, nodesList_eq, mark_broken_auxList_eq] at hn
  simp only [List.flatMap_map, List.mem_flatMap] at hn
  obtain ⟨c0, _, hmem⟩ := hn
  exact mark_broken_aux_char o ov c0 n hmem

theorem mark_conflicting_children_char (o : FSOracle) (translation : Tree) :
    ∀ n ∈ (mark_conflicting o translation).nodes_below,
      n.getB "conflicting"
        = (!n.getB "symlinked" && fs_exists o n.path && !n.getB "is_dir"
            && !n.getB "overlaid" && !n.getB "broken") := by
  intro n hn
  rw [Tree.nodes_below] at hn
  have hch : (mark_conflicting o translation).children
      = mark_conflicting_auxList o translation.children := by
    simp [mark_conflicting, Tree.children]
  rw [hch, nodesList_eq, mark_conflicting_auxList_eq] at hn
  simp only [List.flatMap_map, List.mem_flatMap] at hn
  obtain ⟨c0, _, hmem⟩ := hn
  exact mark_conflicting_aux_char o c0 n hmem

/-- C5 (amended): after classification, the facts `overlaid`, `broken` and
`conflicting` are pairwise exclusive, and for a node with all three false the
node is behind a symlink (`symlinked`), or its current path does not exist at
all (not even as a broken symlink), or its `is_dir` fact is true (its overlay
counterpart was a directory).  The claim's fourth alternative — "path absent
and not yet linked" — alone is too narrow: an existing real base-side
directory also has all three facts false. -/
theorem claim_C5_amended (o : FSOracle) (cfg : Config) (overlay translation : Tree) :
    ∀ n ∈ (classify o cfg overlay translation).nodes_below,
      ((n.getB "overlaid" && n.getB "broken") = false)
      ∧ ((n.getB "overlaid" && n.getB "conflicting") = false)
      ∧ ((n.getB "broken" && n.getB "conflicting") = false)
      ∧ ((n.getB "overlaid" = false ∧ n.getB "broken" = false
            ∧ n.getB "conflicting" = false) →
          (n.getB "symlinked" || !fs_exists o n.path || n.getB "is_dir") = true) := by
  intro n hn
  have hfinal : classify o cfg overlay translation
      = mark_stat o (mark_link cfg.collapse (mark_remove (mark_removable o cfg.collapse
          (cfg.conflict == ConflictMode.replace) (mark_collapsible o
          (cfg.conflict == ConflictMode.replace) overlay (mark_collapsed
          (mark_conflicting o (mark_broken o overlay (mark_overlaid o cfg.relative_links
          (mark_symlinked o translation))))))))) := rfl
  rw [hfinal] at hn
  set T2 := mark_overlaid o cfg.relative_links (mark_symlinked o translation) with hT2
  set T3 := mark_broken o overlay T2 with hT3
  set T4 := mark_conflicting o T3 with hT4
  set T5 := mark_collapsed T4 with hT5
  set T6 := mark_collapsible o (cfg.conflict == ConflictMode.replace) overlay T5 with hT6
  set T7 := mark_removable o cfg.collapse (cfg.conflict == ConflictMode.replace) T6 with hT7
  set T8 := mark_remove T7 with hT8
  set T9 := mark_link cfg.collapse T8 with hT9
  set TF := mark_stat o T9 with hTF
  have a4f : ∀ keys : List String, "collapsed" ∉ keys → "collapsible" ∉ keys →
      "removable" ∉ keys → "remove" ∉ keys → "link" ∉ keys → "stat" ∉ keys →
      agreeOn keys T4 TF = true := by
    intro keys h1 h2 h3 h4 h5 h6
    rw [hT5] at hT6
    refine agreeOn_trans T4 T5 TF keys (by rw [hT5]; exact agreeOn_mark_collapsed keys h1 T4) ?_
    refine agreeOn_trans T5 T6 TF keys
      (by rw [hT6, hT5]; exact agreeOn_mark_collapsible o _ overlay keys h2 T5) ?_
    refine agreeOn_trans T6 T7 TF keys
      (by rw [hT7]; exact agreeOn_mark_removable o cfg.collapse _ keys h3 T6) ?_
    refine agreeOn_trans T7 T8 TF keys (by rw [hT8]; exact agreeOn_mark_remove keys h4 T7) ?_
    refine agreeOn_trans T8 T9 TF keys (by rw [hT9]; exact agreeOn_mark_link cfg.collapse keys h5 T8) ?_
    rw [hTF]
    exact agreeOn_mark_stat o keys h6 T9
  have a3f : agreeOn ["symlinked", "overlaid", "broken"] T3 TF = true := by
    refine agreeOn_trans T3 T4 TF _
      (by rw [hT4]; exact agreeOn_mark_conflicting o _ (by decide) T3) ?_
    exact a4f _ (by decide) (by decide) (by decide) (by decide) (by decide) (by decide)
  have a4f' : agreeOn ["symlinked", "overlaid", "broken", "conflicting", "is_dir"] T4 TF
      = true :=
    a4f _ (by decide) (by decide) (by decide) (by decide) (by decide) (by decide)
  obtain ⟨n4, hn4, hp4, hk4⟩ := agreeOn_nodes_below T4 TF _ a4f' n hn
  obtain ⟨n3, hn3, hp3, hk3⟩ := agreeOn_nodes_below T3 TF _ a3f n hn
  rw [hT4] at hn4
  have hC4 := mark_conflicting_children_char o T3 n4 hn4
  rw [hT3] at hn3
  have hB3 := mark_broken_children_char o overlay T2 n3 hn3
  have econf : n.getB "conflicting" = n4.getB "conflicting" :=
    getB_congr n n4 _ (hk4 _ (by decide))
  have esym4 : n.getB "symlinked" = n4.getB "symlinked" :=
    getB_congr n n4 _ (hk4 _ (by decide))
  have edir : n.getB "is_dir" = n4.getB "is_dir" :=
    getB_congr n n4 _ (hk4 _ (by decide))
  have eov4 : n.getB "overlaid" = n4.getB "overlaid" :=
    getB_congr n n4 _ (hk4 _ (by decide))
  have ebr4 : n.getB "broken" = n4.getB "broken" :=
    getB_congr n n4 _ (hk4 _ (by decide))
  have hCn : n.getB "conflicting"
      = (!n.getB "symlinked" && fs_exists o n.path && !n.getB "is_dir"
          && !n.getB "overlaid" && !n.getB "broken") := by
    rw [econf, esym4, edir, eov4, ebr4, hp4]
    exact hC4
  have esym3 : n.getB "symlinked" = n3.getB "symlinked" :=
    getB_congr n n3 _ (hk3 _ (by decide))
  have eov3 : n.getB "overlaid" = n3.getB "overlaid" :=
    getB_congr n n3 _ (hk3 _ (by decide))
  have ebr3 : n.getB "broken" = n3.getB "broken" :=
    getB_congr n n3 _ (hk3 _ (by decide))
  have hBn : n.getB "broken"
      = (!n.getB "symlinked" && points_into o n.path overlay.path
          && !n.getB "overlaid") := by
    rw [ebr3, esym3, eov3, hp3]
    exact hB3
  refine ⟨?_, ?_, ?_, ?_⟩
  · rw [hBn]
    cases ho : n.getB "overlaid" <;> simp [ho]
  · rw [hCn]
    cases ho : n.getB "overlaid" <;> simp [ho]
  · rw [hCn]
    cases hb : n.getB "broken" <;> simp [hb]
  · rintro ⟨ho, hb, hc⟩
    rw [hCn, ho, hb] at hc
    cases hs : n.getB "symlinked" <;> cases he : fs_exists o n.path <;>
      cases hd : n.getB "is_dir" <;> simp_all

/-- C5 scenario: overlay `/o` contains the empty directory `d`; the base side
has a real (empty) directory at `/b/d`. -/
def cex5Oracle : FSOracle :=
  { trivOracle with
    fsexists := fun p =>
      p == ⟨true, ["o"]⟩ || p == ⟨true, ["o", "d"]⟩
        || p == ⟨true, ["b"]⟩ || p == ⟨true, ["b", "d"]⟩
    isdir := fun p =>
      p == ⟨true, ["o"]⟩ || p == ⟨true, ["o", "d"]⟩
        || p == ⟨true, ["b"]⟩ || p == ⟨true, ["b", "d"]⟩
    listdir := fun p => if p == ⟨true, ["o"]⟩ then ["d"] else []
    walk := fun p =>
      if p == ⟨true, ["b", "d"]⟩ then [(⟨true, ["b", "d"]⟩, [], [])] else [] }

/-- Default-valued configuration for the C5 scenario. -/
def cex5Config : Config :=
  { base_dir := ⟨true, ["b"]⟩
    overlay_dir := ⟨true, ["o"]⟩
    relative_links := true
    conflict := ConflictMode.errorMode
    warn_conflict := true
    backup_dir := none
    collapse := true
    check_mode := false }

/-- Overlay tree of the C5 scenario. -/
def cex5OverlayTree : Tree :=
  match Tree.from_path cex5Oracle 2 ⟨true, ["o"]⟩ none with
  | .ok t => t
  | .error _ => default

/-- Mapped tree of the C5 scenario. -/
def cex5Translation : Tree :=
  match cex5OverlayTree.translate ⟨true, ["o"]⟩ ⟨true, ["b"]⟩ with
  | .ok t => t
  | .error _ => default

/-- The fully classified C5 scenario. -/
def cex5Classified : Tree :=
  classify cex5Oracle cex5Config cex5OverlayTree cex5Translation

/-- C5 counterexample: the claim as stated — exactly one of `overlaid`,
`broken`, `conflicting`, "absent-and-not-yet-linked" — is false on the code:
a real base-side directory mirroring an overlay directory has all three facts
false while its path exists. -/
theorem claim_C5_counterexample :
    ¬ (∀ n ∈ cex5Classified.nodes_below,
        ([n.getB "overlaid", n.getB "broken", n.getB "conflicting",
          !(fs_exists cex5Oracle n.path)].count true = 1)) := by
  decide

/-- Overlay tree for the C5 witness. -/
def wit5Overlay : Tree := .node ⟨true, ["o"]⟩ none [] []

/-- Mapped tree for the C5 witness. -/
def wit5Tree : Tree :=
  .node ⟨true, ["b"]⟩ none [] [.node ⟨true, ["b", "f"]⟩ none [("is_dir", PropVal.b false)] []]

/-- First classified node of the C5 witness scenario. -/
def wit5Node : Tree :=
  (classify trivOracle cex5Config wit5Overlay wit5Tree).nodes_below.headI

/-- Witness for the amended C5 theorem at a concrete run. -/
theorem claim_C5_witness :
    ((wit5Node.getB "overlaid" && wit5Node.getB "broken") = false)
    ∧ ((wit5Node.getB "overlaid" && wit5Node.getB "conflicting") = false)
    ∧ ((wit5Node.getB "broken" && wit5Node.getB "conflicting") = false)
    ∧ ((wit5Node.getB "overlaid" = false ∧ wit5Node.getB "broken" = false
          ∧ wit5Node.getB "conflicting" = false) →
        (wit5Node.getB "symlinked" || !fs_exists trivOracle wit5Node.path
          || wit5Node.getB "is_dir") = true) :=
  claim_C5_amended trivOracle cex5Config wit5Overlay wit5Tree wit5Node (List.Mem.head _)

/-! ## The translator (`Tree.translate_path`) -/

/-- Whether `p` lies on or under `base` (the claimed failure condition). -/
def liesUnder (p base : Pth) : Bool :=
  (p.abs == base.abs) && partsLe base.parts p.parts

/-- Whether an `Except` value is an error. -/
def exceptIsError {ε α : Type} : Except ε α → Bool
  | .error _ => true
  | .ok _ => false

instance {ε α : Type} [DecidableEq ε] [DecidableEq α] : DecidableEq (Except ε α) := by
  intro a b
  cases a with
  | error e =>
    cases b with
    | error e' => exact decidable_of_iff (e = e') (by simp)
    | ok v' => exact isFalse (by intro h; cases h)
  | ok v =>
    cases b with
    | error e' => exact isFalse (by intro h; cases h)
    | ok v' => exact decidable_of_iff (v = v') (by simp)

theorem commonParts_of_partsLe :
    ∀ as bs, partsLe as bs = true → commonParts as bs = as := by
  intro as
  induction as with
  | nil =>
    intro bs _
    cases bs <;> rfl
  | cons a as ih =>
    intro bs h
    cases bs with
    | nil => simp [partsLe] at h
    | cons b bs =>
      rw [partsLe] at h
      simp only [Bool.and_eq_true, beq_iff_eq] at h
      rw [commonParts, if_pos (beq_iff_eq.mpr h.1)]
      rw [ih bs h.2, h.1]

/-- C7 counterexample: for absolute paths, `os.path.commonpath` is at least
"/" and hence truthy, so `translate_path` does NOT raise when the path lies
outside `old_base`; it silently returns a `..`-containing path. -/
theorem claim_C7_counterexample :
    (liesUnder ⟨true, ["a", "x"]⟩ ⟨true, ["b"]⟩ = false)
    ∧ ((Tree.node ⟨true, ["a", "x"]⟩ none [] []).translate_path ⟨true, ["b"]⟩ ⟨true, ["c"]⟩
        = .ok ⟨true, ["c", "..", "a", "x"]⟩) := by
  decide

/-- C7 (amended): when the node's path does lie on or under `old_base` (and
`old_base` is a non-degenerate path) translation returns `new_base` joined
with the remainder, as claimed; but translation fails (with the
`AssertionError` the spec calls `PathError`) only when the absoluteness of
the two paths differs, or both are relative and share no leading component
while being distinct — never merely because an absolute path lies outside
`old_base`. -/
theorem claim_C7_amended (t : Tree) (old_base new_base : Pth) :
    ((old_base.abs = true ∨ old_base.parts ≠ []) → liesUnder t.path old_base = true →
      t.translate_path old_base new_base
        = .ok ⟨new_base.abs, new_base.parts ++ t.path.parts.drop old_base.parts.length⟩)
    ∧ (exceptIsError (t.translate_path old_base new_base) = true ↔
        (t.path.abs ≠ old_base.abs
          ∨ (old_base.abs = false ∧ old_base ≠ t.path
              ∧ commonParts old_base.parts t.path.parts = []))) := by
  constructor
  · intro hne hlies
    rw [liesUnder] at hlies
    simp only [Bool.and_eq_true, beq_iff_eq] at hlies
    obtain ⟨habs, hle⟩ := hlies
    have hcp : commonParts old_base.parts t.path.parts = old_base.parts :=
      commonParts_of_partsLe _ _ hle
    rw [Tree.translate_path, translate_pathP]
    have hguard : (t.path.abs != old_base.abs
        || !(old_base == t.path || commonTruthy old_base t.path)) = false := by
      rw [habs]
      simp only [bne_self_eq_false, Bool.false_or, Bool.not_eq_false']
      rw [commonTruthy, hcp]
      cases hoa : old_base.abs with
      | true => simp
      | false =>
        rcases hne with hne | hne
        · rw [hne] at hoa
          cases hoa
        · simp [List.isEmpty_iff, hne]
    rw [if_neg (by rw [hguard]; exact Bool.false_ne_true)]
    rw [joinParts, relParts, hcp]
    simp

  · rw [Tree.translate_path, translate_pathP]
    have hsplit : ∀ (c : Bool) (v : Pth),
        exceptIsError (if c = true then (.error () : Except Unit Pth) else .ok v) = c := by
      intro c v
      cases c <;> simp [exceptIsError]
    rw [hsplit]
    cases hpa : t.path.abs <;> cases hoa : old_base.abs <;>
      by_cases heq : old_base = t.path <;>
        by_cases hcp : commonParts old_base.parts t.path.parts = [] <;>
          simp [commonTruthy, hpa, hoa, heq, hcp, List.isEmpty_iff]

/-- Witness for the amended C7 theorem: `/b/x` translated from `/b` to `/c`. -/
theorem claim_C7_witness :
    (Tree.node ⟨true, ["b", "x"]⟩ none [] []).translate_path ⟨true, ["b"]⟩ ⟨true, ["c"]⟩
      = .ok ⟨true, ["c", "x"]⟩ := by
  exact (claim_C7_amended (Tree.node ⟨true, ["b", "x"]⟩ none [] [])
    ⟨true, ["b"]⟩ ⟨true, ["c"]⟩).1 (Or.inl rfl) (by decide)

/-! ## `Tree.from_path` (claim C10) -/

theorem exceptMapM_ok {α β : Type} (f : α → Except BuildErr β) (P : β → Prop) :
    ∀ l : List α, (∀ a ∈ l, ∃ b, f a = .ok b ∧ P b) →
      ∃ bs, l.mapM f = .ok bs ∧ ∀ b ∈ bs, P b := by
  intro l
  induction l with
  | nil =>
    intro _
    exact ⟨[], rfl, by intro b hb; cases hb⟩
  | cons a l ih =>
    intro h
    obtain ⟨b, hfb, hPb⟩ := h a (List.mem_cons_self _ _)
    obtain ⟨bs, hmap, hPs⟩ := ih (fun x hx => h x (List.mem_cons_of_mem _ hx))
    refine ⟨b :: bs, ?_, ?_⟩
    · rw [List.mapM_cons, hfb, hmap]
      rfl
    · intro x hx
      rw [List.mem_cons] at hx
      rcases hx with hx | hx
      · rw [hx]
        exact hPb
      · exact hPs x hx

theorem from_path_unfold (o : FSOracle) (fuel : Nat) (path : Pth) (depth : Option Int) :
    Tree.from_path o fuel path depth =
      if (match depth with | some d => decide (d < 0) | none => false)
          || !fs_exists o path || !path.abs then
        .error .assertFail
      else
        Except.map
          (fun cs => Tree.node path depth [("is_dir", PropVal.b (isdirReal o path))] cs)
          (if isdirReal o path && depth != some 0 then
            match fuel with
            | 0 => if (o.listdir path).isEmpty then .ok [] else .error .noFuel
            | fuel' + 1 =>
              (o.listdir path).mapM
                (fun nm => Tree.from_path o fuel' (path.child nm) (depth.map (· - 1)))
          else .ok []) := by
  rw [Tree.from_path.eq_def]

/-- C10: `Tree.from_path` fails with an `AssertionError`, building no tree,
whenever the given depth is negative, the path does not exist (broken
symlinks counting as existing), or the path is not absolute; otherwise — on a
filesystem whose listings are consistent and of bounded depth, with enough
fuel for that bound — it returns a tree all of whose node paths exist. -/
theorem claim_C10 :
    (∀ (o : FSOracle) (fuel : Nat) (path : Pth) (depth : Option Int),
      ((∃ d, depth = some d ∧ d < 0) ∨ fs_exists o path = false ∨ path.abs = false) →
      Tree.from_path o fuel path depth = .error BuildErr.assertFail)
    ∧ (∀ (o : FSOracle) (bound : Nat),
        (∀ q : Pth, ∀ nm ∈ o.listdir q, fs_exists o (q.child nm) = true) →
        (∀ q : Pth, bound ≤ q.parts.length → o.listdir q = []) →
        ∀ (fuel : Nat) (path : Pth) (depth : Option Int),
        (∀ d, depth = some d → 0 ≤ d) →
        fs_exists o path = true → path.abs = true →
        bound ≤ fuel + path.parts.length →
        ∃ t, Tree.from_path o fuel path depth = .ok t
          ∧ ∀ n ∈ t.nodes, fs_exists o n.path = true) := by
  constructor
  · intro o fuel path depth h
    rw [from_path_unfold]
    split
    · rfl
    · rename_i hcond
      exfalso
      rcases h with ⟨d, hd, hlt⟩ | h | h
      · subst hd
        simp [hlt] at hcond
      · simp [h] at hcond
      · simp [h] at hcond
  · intro o bound hl hb fuel
    induction fuel with
    | zero =>
      intro path depth hd hex habs hbound
      rw [from_path_unfold]
      split
      · rename_i hcond
        exfalso
        cases depth with
        | none => simp [hex, habs] at hcond
        | some d => simp [hex, habs, not_lt.mpr (hd d rfl)] at hcond
      by_cases hdir : (isdirReal o path && depth != some 0) = true
      · rw [if_pos hdir]
        have hempty : o.listdir path = [] := hb path (by omega)
        refine ⟨Tree.node path depth [("is_dir", PropVal.b (isdirReal o path))] [], ?_, ?_⟩
        · simp only [hempty, List.isEmpty_nil, if_pos]
          rfl
        · intro n hn
          rw [Tree.nodes] at hn
          rcases (by simpa [Tree.nodesList] using hn :
            n = Tree.node path depth [("is_dir", PropVal.b (isdirReal o path))] []) with rfl
          simpa [Tree.path] using hex
      · rw [if_neg hdir]
        refine ⟨Tree.node path depth [("is_dir", PropVal.b (isdirReal o path))] [], rfl, ?_⟩
        intro n hn
        rw [Tree.nodes] at hn
        rcases (by simpa [Tree.nodesList] using hn :
          n = Tree.node path depth [("is_dir", PropVal.b (isdirReal o path))] []) with rfl
        simpa [Tree.path] using hex
    | succ f ih =>
      intro path depth hd hex habs hbound
      rw [from_path_unfold]
      split
      · rename_i hcond
        exfalso
        cases depth with
        | none => simp [hex, habs] at hcond
        | some d => simp [hex, habs, not_lt.mpr (hd d rfl)] at hcond
      by_cases hdir : (isdirReal o path && depth != some 0) = true
      · rw [if_pos hdir]
        have hne0 : depth ≠ some 0 := by
          have := (Bool.and_eq_true_iff.mp hdir).2
          simpa using this
        have hch : ∀ nm ∈ o.listdir path,
            ∃ t, Tree.from_path o f (path.child nm) (depth.map (· - 1)) = .ok t
              ∧ ∀ n ∈ t.nodes, fs_exists o n.path = true := by
          intro nm hnm
          refine ih (path.child nm) (depth.map (· - 1)) ?_ (hl path nm hnm)
            (by simpa [Pth.child] using habs) ?_
          · intro e he
            cases depth with
            | none => cases he
            | some k =>
              simp only [Option.map_some] at he
              have hk0 : k ≠ 0 := by
                intro hk
                exact hne0 (by rw [hk])
              have hknn : 0 ≤ k := hd k rfl
              rcases (by simpa using he : k - 1 = e) with rfl
              omega
          · have : (path.child nm).parts.length = path.parts.length + 1 := by
              simp [Pth.child]
            omega
        obtain ⟨cs, hmap, hcsP⟩ := exceptMapM_ok _ _ _ hch
        refine ⟨Tree.node path depth [("is_dir", PropVal.b (isdirReal o path))] cs, ?_, ?_⟩
        · simp only [hmap]
          rfl
        · intro n hn
          rw [Tree.nodes, nodesList_eq, List.mem_cons] at hn
          rcases hn with hn | hn
          · rw [hn]
            simpa [Tree.path] using hex
          · simp only [List.mem_flatMap] at hn
            obtain ⟨c, hc, hn⟩ := hn
            exact hcsP c hc n hn
      · rw [if_neg hdir]
        refine ⟨Tree.node path depth [("is_dir", PropVal.b (isdirReal o path))] [], rfl, ?_⟩
        intro n hn
        rw [Tree.nodes] at hn
        rcases (by simpa [Tree.nodesList] using hn :
          n = Tree.node path depth [("is_dir", PropVal.b (isdirReal o path))] []) with rfl
        simpa [Tree.path] using hex

/-- Witness for C10: a nonexisting path raises; the two-level C3 overlay
builds with all node paths existing. -/
theorem claim_C10_witness :
    (Tree.from_path trivOracle 1 ⟨true, ["x"]⟩ none = .error BuildErr.assertFail)
    ∧ (∃ t, Tree.from_path cex3Oracle 2 ⟨true, ["o"]⟩ none = .ok t
        ∧ ∀ n ∈ t.nodes, fs_exists cex3Oracle n.path = true) := by
  constructor
  · exact claim_C10.1 trivOracle 1 ⟨true, ["x"]⟩ none (Or.inr (Or.inl (by decide)))
  · refine claim_C10.2 cex3Oracle 2 ?_ ?_ 2 ⟨true, ["o"]⟩ none ?_ (by decide) rfl (by decide)
    · intro q nm hnm
      by_cases hq : q = ⟨true, ["o"]⟩
      · subst hq
        have hf : nm = "f" := by
          simpa [cex3Oracle, trivOracle] using hnm
        subst hf
        decide
      · exfalso
        simp [cex3Oracle, trivOracle, hq] at hnm
    · intro q hq
      by_cases h : q = ⟨true, ["o"]⟩
      · subst h
        simp at hq
      · simp [cex3Oracle, trivOracle, h]
    · intro d hd
      cases hd

/-! ## The run as a whole (claims C1, C8, C9) -/

/-- C1: under conflict policy `error`, if after classification any node of the
mapped tree is `conflicting`, the run fails before any remove/link/stat
action executes (empty action trace, so the filesystem is untouched), and the
failure message lists the paths of all conflicting nodes joined by newlines.
The hypotheses state that the run reaches classification: parameter
validation passes and the overlay tree builds and translates. -/
theorem claim_C1 (o : FSOracle) (cfg : Config) (timestamp : String) (fuel : Nat)
    (ov tr : Tree)
    (h1 : isdirReal o cfg.base_dir = true)
    (h2 : isdirReal o cfg.overlay_dir = true)
    (h3 : o.samefile cfg.base_dir cfg.overlay_dir = false)
    (h4 : is_inside cfg.base_dir cfg.overlay_dir = false)
    (hb1 : (match cfg.backup_dir.map (fun b => b.child timestamp) with
      | some b => fs_exists o b && !isdirReal o b
      | none => false) = false)
    (hb2 : (match cfg.backup_dir.map (fun b => b.child timestamp) with
      | some b => fs_exists o b && (o.listdir b).length > 0
      | none => false) = false)
    (hb3 : (match cfg.backup_dir.map (fun b => b.child timestamp) with
      | some b => is_inside b cfg.overlay_dir
      | none => false) = false)
    (hfp : Tree.from_path o fuel cfg.overlay_dir none = .ok ov)
    (htr : Tree.translate ov cfg.overlay_dir cfg.base_dir = .ok tr)
    (hmode : cfg.conflict = ConflictMode.errorMode)
    (hconf : (classify o cfg ov tr).filter_children (fun t => t.getB "conflicting") ≠ []) :
    main_run o cfg timestamp fuel
      = (.error ("Found and replaced conflicts:\n" ++ String.intercalate "\n"
          (((classify o cfg ov tr).filter_children (fun t => t.getB "conflicting")).map
            (fun t => t.path.render))), []) := by
  have hne : ((classify o cfg ov tr).filter_children
      (fun t => t.getB "conflicting")).isEmpty = false := by
    simp [List.isEmpty_iff, hconf]
  simp only [main_run, h1, h2, h3, h4, hb1, hb2, hb3, hfp, htr, hmode, hne]
  simp

/-- Configuration of the C1 witness run (policy `error`, no backup dir). -/
def wit1Config : Config :=
  { base_dir := ⟨true, ["b"]⟩
    overlay_dir := ⟨true, ["o"]⟩
    relative_links := true
    conflict := ConflictMode.errorMode
    warn_conflict := true
    backup_dir := none
    collapse := true
    check_mode := false }

/-- Witness for C1: overlay `/o/f` conflicts with the foreign base entry
`/b/f`; the run fails with the newline-joined conflict list and an empty
action trace. -/
theorem claim_C1_witness :
    main_run cex3Oracle wit1Config "20240101" 2
      = (.error ("Found and replaced conflicts:\n" ++ String.intercalate "\n"
          (((classify cex3Oracle wit1Config cex3OverlayTree cex3Translation).filter_children
            (fun t => t.getB "conflicting")).map (fun t => t.path.render))), []) := by
  refine claim_C1 cex3Oracle wit1Config "20240101" 2 cex3OverlayTree cex3Translation
    rfl rfl rfl rfl rfl rfl rfl rfl rfl rfl ?_
  have hlen : ((classify cex3Oracle wit1Config cex3OverlayTree cex3Translation).filter_children
      (fun t => t.getB "conflicting")).length = 1 := rfl
  intro h
  rw [h] at hlen
  cases hlen

/-- C8 (amended): the emptiness validation applies to the TIMESTAMP-SUFFIXED
backup path, because `main` postfixes `backup_dir` with the timestamp before
calling `validate_params`: if `backup_dir/<timestamp>` already exists as a
non-empty directory, the run fails during parameter validation with
"backup_dir must be empty", before any classification or filesystem action. -/
theorem claim_C8_amended (o : FSOracle) (cfg : Config) (timestamp : String) (fuel : Nat)
    (bd : Pth)
    (h1 : isdirReal o cfg.base_dir = true)
    (h2 : isdirReal o cfg.overlay_dir = true)
    (h3 : o.samefile cfg.base_dir cfg.overlay_dir = false)
    (h4 : is_inside cfg.base_dir cfg.overlay_dir = false)
    (hbd : cfg.backup_dir = some bd)
    (hex : fs_exists o (bd.child timestamp) = true)
    (hdir : isdirReal o (bd.child timestamp) = true)
    (hlen : (o.listdir (bd.child timestamp)).length > 0) :
    main_run o cfg timestamp fuel = (.error "backup_dir must be empty", []) := by
  simp only [main_run, h1, h2, h3, h4, hbd, Option.map_some]
  simp [hex, hdir, hlen]

/-- C8/C9 scenario: overlay `/o` with file `f`, empty base `/b`, and a
configured backup dir `/bk` that already exists and is non-empty, while the
timestamped `/bk/t0` does not exist. -/
def cex8Oracle : FSOracle :=
  { trivOracle with
    fsexists := fun p =>
      p == ⟨true, ["o"]⟩ || p == ⟨true, ["o", "f"]⟩
        || p == ⟨true, ["b"]⟩ || p == ⟨true, ["bk"]⟩
    isdir := fun p =>
      p == ⟨true, ["o"]⟩ || p == ⟨true, ["b"]⟩ || p == ⟨true, ["bk"]⟩
    listdir := fun p =>
      if p == ⟨true, ["o"]⟩ then ["f"]
      else if p == ⟨true, ["bk"]⟩ then ["old"] else [] }

/-- Configuration of the C8/C9 scenario. -/
def cex8Config : Config :=
  { base_dir := ⟨true, ["b"]⟩
    overlay_dir := ⟨true, ["o"]⟩
    relative_links := true
    conflict := ConflictMode.errorMode
    warn_conflict := true
    backup_dir := some ⟨true, ["bk"]⟩
    collapse := true
    check_mode := false }

/-- C8 counterexample: `backup_dir` itself exists and is non-empty, yet the
run does NOT fail during parameter validation — it completes successfully,
because validation checks the timestamp-suffixed path. -/
theorem claim_C8_counterexample :
    (fs_exists cex8Oracle ⟨true, ["bk"]⟩ = true)
    ∧ (cex8Oracle.listdir ⟨true, ["bk"]⟩ ≠ [])
    ∧ (∃ res acts, main_run cex8Oracle cex8Config "t0" 2 = (.ok res, acts)) := by
  exact ⟨rfl, by decide, ⟨_, _, rfl⟩⟩

/-- Filesystem for the C8 witness: the timestamped backup path `/bk/t0`
itself exists and is a non-empty directory. -/
def wit8Oracle : FSOracle :=
  { trivOracle with
    fsexists := fun p =>
      p == ⟨true, ["o"]⟩ || p == ⟨true, ["b"]⟩ || p == ⟨true, ["bk", "t0"]⟩
    isdir := fun p =>
      p == ⟨true, ["o"]⟩ || p == ⟨true, ["b"]⟩ || p == ⟨true, ["bk", "t0"]⟩
    listdir := fun p => if p == ⟨true, ["bk", "t0"]⟩ then ["x"] else [] }

/-- Witness for the amended C8 theorem. -/
theorem claim_C8_witness :
    main_run wit8Oracle cex8Config "t0" 3 = (.error "backup_dir must be empty", []) :=
  claim_C8_amended wit8Oracle cex8Config "t0" 3 ⟨true, ["bk"]⟩
    rfl rfl rfl rfl rfl rfl rfl (by decide)

/-- C6 (amended, fixed-point half): a run that reports `changed = false`
executes no remove/link/stat action at all, so the filesystem it leaves
behind is the one it saw, and any identical re-run reproduces the same
result.  (The full two-run idempotence of the claim is refuted by
`claim_C6_counterexample`.) -/
theorem claim_C6_amended (o : FSOracle) (cfg : Config) (timestamp : String) (fuel : Nat)
    (res : MResult) (acts : List Action)
    (h : main_run o cfg timestamp fuel = (.ok res, acts))
    (hch : res.changed = false) : acts = [] := by
  simp only [main_run] at h
  repeat' split at h
  all_goals try exact Except.noConfusion (congrArg Prod.fst h)
  all_goals
    (rw [Prod.mk.injEq] at h
     obtain ⟨h1, h2⟩ := h
     simp only [Except.ok.injEq] at h1
     subst h1
     simp only [update_result] at hch
     rw [Bool.not_eq_false'] at hch
     simp only [Bool.and_eq_true, List.isEmpty_iff] at hch
     obtain ⟨⟨hr, hl⟩, hs⟩ := hch
     rw [← h2]
     try simp [hr, hl, hs, remove_trees_trace, create_links_trace, change_stats_trace])

/-- C6 scenario, state before the first run: overlay `/o/d/f`; the base has
`/b/d` as an ABSOLUTE symlink to `/o/d` while `relative_links = true`
(default), so the link has the wrong form.  `os.path.isdir` and
`os.path.exists` follow the link, `os.walk("/b/d")` lists the overlay file
`f` (as a plain file, not a link), and lstat-based mode/owner of the link
differ from the overlay directory. -/
def cex6PreOracle : FSOracle where
  islink := fun p => p == ⟨true, ["b", "d"]⟩
  fsexists := fun p =>
    p == ⟨true, ["o"]⟩ || p == ⟨true, ["o", "d"]⟩ || p == ⟨true, ["o", "d", "f"]⟩
      || p == ⟨true, ["b"]⟩ || p == ⟨true, ["b", "d"]⟩ || p == ⟨true, ["b", "d", "f"]⟩
  isdir := fun p =>
    p == ⟨true, ["o"]⟩ || p == ⟨true, ["o", "d"]⟩
      || p == ⟨true, ["b"]⟩ || p == ⟨true, ["b", "d"]⟩
  linkTarget := fun p => if p == ⟨true, ["b", "d"]⟩ then ⟨true, ["o", "d"]⟩ else ⟨true, []⟩
  linkRel := fun _ => false
  listdir := fun p =>
    if p == ⟨true, ["o"]⟩ then ["d"] else if p == ⟨true, ["o", "d"]⟩ then ["f"] else []
  walk := fun p =>
    if p == ⟨true, ["b", "d"]⟩ then [(⟨true, ["b", "d"]⟩, [], ["f"])] else []
  samefile := fun _ _ => false
  equal_mode := fun _ _ => false
  equal_owner := fun _ _ => false
  chmodFollow := false
  chownFollow := true

/-- C6 scenario, state after the first run's actions are applied to
`cex6PreOracle`'s filesystem (remove the `/b/d` link, `makedirs` a real
`/b/d`, create the relative link `/b/d/f -> ../../o/d/f`, sync stats): `/b/d`
is now a real directory whose single entry is a correct relative symlink into
the overlay. -/
def cex6PostOracle : FSOracle where
  islink := fun p => p == ⟨true, ["b", "d", "f"]⟩
  fsexists := fun p =>
    p == ⟨true, ["o"]⟩ || p == ⟨true, ["o", "d"]⟩ || p == ⟨true, ["o", "d", "f"]⟩
      || p == ⟨true, ["b"]⟩ || p == ⟨true, ["b", "d"]⟩ || p == ⟨true, ["b", "d", "f"]⟩
  isdir := fun p =>
    p == ⟨true, ["o"]⟩ || p == ⟨true, ["o", "d"]⟩
      || p == ⟨true, ["b"]⟩ || p == ⟨true, ["b", "d"]⟩
  linkTarget := fun p =>
    if p == ⟨true, ["b", "d", "f"]⟩ then ⟨true, ["o", "d", "f"]⟩ else ⟨true, []⟩
  linkRel := fun p => p == ⟨true, ["b", "d", "f"]⟩
  listdir := fun p =>
    if p == ⟨true, ["o"]⟩ then ["d"] else if p == ⟨true, ["o", "d"]⟩ then ["f"] else []
  walk := fun p =>
    if p == ⟨true, ["b", "d"]⟩ then [(⟨true, ["b", "d"]⟩, [], ["f"])] else []
  samefile := fun _ _ => false
  equal_mode := fun _ _ => true
  equal_owner := fun _ _ => true
  chmodFollow := false
  chownFollow := true

/-- Configuration of the C6 scenario (all defaults, no backup). -/
def cex6Config : Config :=
  { base_dir := ⟨true, ["b"]⟩
    overlay_dir := ⟨true, ["o"]⟩
    relative_links := true
    conflict := ConflictMode.errorMode
    warn_conflict := true
    backup_dir := none
    collapse := true
    check_mode := false }

/-- C6 counterexample: the engine is NOT idempotent.  Run 1 (on
`cex6PreOracle`) removes the wrong-form directory symlink `/b/d` — which is
not collapsible at that point, since `os.walk` behind the old link shows a
plain file — and replaces it by a real directory with a per-file link; its
action trace is exactly what `cex6PostOracle` models.  Run 2 (on
`cex6PostOracle`) then finds the real directory collapsible, removes it and
links it as a whole: `changed = true` again on the second run, with
non-empty remove and link sets. -/
theorem claim_C6_counterexample :
    (∃ res1 acts1, main_run cex6PreOracle cex6Config "t1" 3 = (.ok res1, acts1)
      ∧ res1.changed = true
      ∧ acts1 = [Action.removeA ⟨true, ["b", "d"]⟩,
          Action.mkdirA ⟨true, ["b", "d"]⟩,
          Action.linkA ⟨true, ["b", "d", "f"]⟩ ⟨false, ["..", "..", "o", "d", "f"]⟩,
          Action.statA ⟨true, ["b", "d"]⟩,
          Action.statA ⟨true, ["b", "d", "f"]⟩])
    ∧ (∃ res2 acts2, main_run cex6PostOracle cex6Config "t2" 3 = (.ok res2, acts2)
      ∧ res2.changed = true
      ∧ res2.removed_trees = [⟨true, ["b", "d"]⟩]
      ∧ res2.created_links = [⟨true, ["b", "d"]⟩]) := by
  constructor
  · exact ⟨_, _, rfl, by decide, by decide⟩
  · exact ⟨_, _, rfl, by decide, by decide, by decide⟩

/-- Filesystem for the C6 witness: empty overlay, empty base — a no-op run. -/
def wit6Oracle : FSOracle :=
  { trivOracle with
    fsexists := fun p => p == ⟨true, ["o"]⟩ || p == ⟨true, ["b"]⟩
    isdir := fun p => p == ⟨true, ["o"]⟩ || p == ⟨true, ["b"]⟩ }

/-- Witness for the amended C6 theorem: the no-op run executes no action. -/
theorem claim_C6_witness :
    (main_run wit6Oracle cex6Config "t0" 2).2 = [] :=
  claim_C6_amended wit6Oracle cex6Config "t0" 2
    ⟨false, [], [], [], none⟩ (main_run wit6Oracle cex6Config "t0" 2).2 rfl rfl

end LinkOverlay
